import Mathlib

/-!
# Verification of the marian full-text search core

A shallow embedding, in Lean 4, of the indexing and ranking engine of the
marian HTTP full-text search service, together with proofs about it.

Embedded components and the source files they are translated from:

* character trie with exact and prefix retrieval (`Trie.js`);
* tokenizer and stop-word filter, both the TypeScript generation
  (`src/fts/Stemmer.ts`) and the JavaScript generation (`src/fts/Stemmer.js`
  of the JS tree, the one `require`d by `src/fts/fts.js`);
* query phrase checking (`Query.js` / `Query.ts`);
* the inverted index `FTSIndex` (`src/fts/fts.js`): `correlateWord`, `add`,
  `collectCorrelations`, the candidate/scoring phase of `search`, the phrase
  post-filter, `getNeighbors`, `computeRelevancyThreshold`, `dirichletPlus`;
* the balancing worker pool (`src/pool.ts`).

JavaScript `Map`s are modelled as association lists with JS `Map` semantics
(first-match lookup, in-place update of an existing key, append for a new
key, insertion-order iteration); JS `Set`s as duplicate-free lists with
insertion order (guarded append).  JS numbers are modelled as `ℚ` where the
program only ever adds, compares and divides exactly (weights, counters) and
as `ℝ` where logarithms and square roots occur (scores).  The Porter2
stemmer itself (`Porter2.js`) is not among the provided sources, so `stem`
is a parameter of every definition that needs it.
-/

namespace Marian

/-- JS `Map.prototype.get`: the value at the first matching key. -/
def lookupKey {α : Type} (l : List (String × α)) (k : String) : Option α :=
  match l with
  | [] => none
  | (k2, v) :: rest => if k2 = k then some v else lookupKey rest k

/-- JS `Map.prototype.get` for numeric keys. -/
def lookupNat {α : Type} (l : List (Nat × α)) (k : Nat) : Option α :=
  match l with
  | [] => none
  | (k2, v) :: rest => if k2 = k then some v else lookupNat rest k

/-- JS `Map.prototype.set`: overwrite the first matching key in place,
append a fresh key at the end (insertion order). -/
def setKey {α : Type} (l : List (String × α)) (k : String) (v : α) :
    List (String × α) :=
  match l with
  | [] => [(k, v)]
  | (k2, v2) :: rest =>
    if k2 = k then (k2, v) :: rest else (k2, v2) :: setKey rest k v

/-- JS `Map.prototype.set` for numeric keys. -/
def setNat {α : Type} (l : List (Nat × α)) (k : Nat) (v : α) :
    List (Nat × α) :=
  match l with
  | [] => [(k, v)]
  | (k2, v2) :: rest =>
    if k2 = k then (k2, v) :: rest else (k2, v2) :: setNat rest k v

/-- JS `Set.prototype.add`: append unless already present. -/
def pushNew {α : Type} [DecidableEq α] (l : List α) (a : α) : List α :=
  if a ∈ l then l else l ++ [a]

/-! ## The character trie (`src/fts/Trie.js`)

The JS trie is a nest of `Map`s: key `0` holds `null` or a `Set` of document
ids (the terminal), key `charCodeAt(i) + 1` holds the child for that
character.  We split the two kinds of key into the two fields of a node.
-/

namespace Trie

inductive Node where
  | node (term : Option (List Nat)) (children : List (Nat × Node))

/-- `new Map([[0, null]])`. -/
def emptyNode : Node := .node none []

def Node.term : Node → Option (List Nat)
  | .node t _ => t

def Node.children : Node → List (Nat × Node)
  | .node _ c => c

/-- Child map lookup, `cursor.get(code)`. -/
def childFor (children : List (Nat × Node)) (code : Nat) : Option Node :=
  match children with
  | [] => none
  | (k, c) :: rest => if k = code then some c else childFor rest code

/-- Child map update, `cursor.set(code, …)`. -/
def setChild (children : List (Nat × Node)) (code : Nat) (n : Node) :
    List (Nat × Node) :=
  match children with
  | [] => [(code, n)]
  | (k, c) :: rest =>
    if k = code then (k, n) :: rest else (k, c) :: setChild rest code n

/-- `Trie.insert(token, id)`.  Walks the token creating missing children
(`if (!cursor.get(code)) cursor.set(code, new Map([[0, null]]))`), then at
the end replaces a `null` terminal by an empty set and `Set.add`s the id. -/
def insert : Node → List Char → Nat → Node
  | .node term children, [], id =>
    let ids := match term with
      | none => ([] : List Nat)
      | some ids => ids
    .node (some (pushNew ids id)) children
  | .node term children, c :: rest, id =>
    let code := c.toNat + 1
    let child := match childFor children code with
      | none => emptyNode
      | some t => t
    .node term (setChild children code (insert child rest id))

/-- The walk shared by both phases of `Trie.search`: follow the token,
returning `none` where the JS returns the empty map. -/
def walk : Node → List Char → Option Node
  | t, [] => some t
  | .node _ children, c :: rest =>
    match childFor children (c.toNat + 1) with
    | none => none
    | some child => walk child rest

mutual

/-- All terminals of the subtree rooted at a node, each with the full token
that leads to it.  This is the set of pairs visited by the JS depth-first
stack loop in `Trie.search` (the stack pops in LIFO order; only the
resulting id → token-set map matters and it is order-independent). -/
def collectEntries : Node → List Char → List (List Char × List Nat)
  | .node term children, pre =>
    (match term with
      | none => []
      | some ids => [(pre, ids)]) ++ collectChildren children pre

/-- `stack.push([nextCursor, currentToken + String.fromCharCode(key - 1)])`
for every child key. -/
def collectChildren : List (Nat × Node) → List Char → List (List Char × List Nat)
  | [], _ => []
  | (k, c) :: rest, pre =>
    collectEntries c (pre ++ [Char.ofNat (k - 1)]) ++ collectChildren rest pre

end

/-- Merge one `(id, token)` hit into the results map:
`const arr = results.get(value); if (arr) arr.add(currentToken); else
results.set(value, new Set([currentToken]))`. -/
def addHit (results : List (Nat × List (List Char))) (id : Nat)
    (tok : List Char) : List (Nat × List (List Char)) :=
  match results with
  | [] => [(id, [tok])]
  | (k, ts) :: rest =>
    if k = id then (k, pushNew ts tok) :: rest else (k, ts) :: addHit rest id tok

/-- `Trie.search(token, prefixSearch)`, returning the JS result
`Map<docId, Set<token>>` as an association list. -/
def search (t : Node) (token : List Char) (prefixSearch : Bool) :
    List (Nat × List (List Char)) :=
  match walk t token with
  | none => []
  | some cursor =>
    let exact := match cursor.term with
      | none => []
      | some ids => ids.foldl (fun r id => setNat r id [token]) []
    if prefixSearch then
      (collectEntries cursor token).foldl
        (fun r e => e.2.foldl (fun r id => addHit r id e.1) r) exact
    else
      exact

/-- `new Trie()` followed by `insert(token, id)` for each listed pair. -/
def build (pairs : List (List Char × Nat)) : Node :=
  pairs.foldl (fun t p => insert t p.1 p.2) emptyNode

/-- The ids stored at the terminal reached by a token (empty when the path
or the terminal is missing).  Specification-side view of the trie contents,
used to state the search theorems. -/
def termIds (t : Node) (token : List Char) : List Nat :=
  match walk t token with
  | none => []
  | some n =>
    match n.term with
    | none => []
    | some ids => ids

/-- Well-formedness of a trie node, automatic for every trie the code
builds: child keys are distinct (they come from a JS `Map`) and each is
`charCodeAt + 1` for some character. -/
inductive WF : Node → Prop where
  | mk : ∀ (term : Option (List Nat)) (children : List (Nat × Node)),
      (children.map Prod.fst).Nodup →
      (∀ p ∈ children, ∃ c : Char, p.1 = c.toNat + 1) →
      (∀ p ∈ children, WF p.2) →
      WF (.node term children)

/-- The same well-formedness conditions, restated for a child list. -/
def WFch (children : List (Nat × Node)) : Prop :=
  (children.map Prod.fst).Nodup ∧
  (∀ p ∈ children, ∃ c : Char, p.1 = c.toNat + 1) ∧
  (∀ p ∈ children, WF p.2)

end Trie

/-! ## Tokenizer, TypeScript generation (`src/fts/Stemmer.ts`) -/

namespace Stemmer

/-- `atomicPhraseMap = {"ops": "manager", "cloud": "manager", "real": "time"}`. -/
def atomicPhraseMap (w : String) : Option String :=
  if w = "ops" then some "manager"
  else if w = "cloud" then some "manager"
  else if w = "real" then some "time"
  else none

/-- JS `\w`, i.e. `[A-Za-z0-9_]`. -/
def isWordChar (c : Char) : Bool := c.isAlphanum || c = '_'

/-- A character matched by the separator class of `/[^\w$%.]+/`. -/
def isSep (c : Char) : Bool := !(isWordChar c || c = '$' || c = '%' || c = '.')

/-- JS `String.prototype.split` on a one-or-more separator-class regex:
maximal separator runs split the string, and a leading or trailing run
contributes an empty component (`" a ".split(/\s+/) = ["", "a", ""]`).
`cur` is the current component reversed; `prevSep` records whether the last
character seen belonged to a separator run. -/
def splitGo (sep : Char → Bool) : List Char → List Char → Bool → List (List Char)
  | [], cur, _ => [cur.reverse]
  | c :: rest, cur, prevSep =>
    if sep c then
      if prevSep then splitGo sep rest cur true
      else cur.reverse :: splitGo sep rest [] true
    else splitGo sep rest (c :: cur) false

def splitRuns (sep : Char → Bool) (s : List Char) : List (List Char) :=
  splitGo sep s [] false

/-- `token.toLocaleLowerCase().replace(/(?:^\.)|(?:\.$)/g, "")`: lowercase,
then strip one leading and one trailing dot.  (`toLocaleLowerCase` agrees
with ASCII lowercasing on the ASCII input this program feeds it.) -/
def cleanComponent (l : List Char) : String :=
  let low := l.map Char.toLower
  let l1 := match low with
    | '.' :: r => r
    | other => other
  let l2 := match l1.reverse with
    | '.' :: r => r.reverse
    | _ => l1
  String.mk l2

/-- The `components` array of `tokenize`. -/
def componentsOf (text : String) : List String :=
  (splitRuns isSep text.data).map cleanComponent

/-- JS `token.split(".")`: split at every dot, keeping empty pieces. -/
def splitOnDotGo : List Char → List Char → List String
  | [], cur => [String.mk cur.reverse]
  | c :: rest, cur =>
    if c = '.' then String.mk cur.reverse :: splitOnDotGo rest []
    else splitOnDotGo rest (c :: cur)

def splitOnDot (s : String) : List String := splitOnDotGo s.data []

/-- One non-`$`, non-atomic component's emissions: push the component if its
length exceeds 1; under `fuzzy`, when `token.split(".")` has at least two
pieces, additionally push each piece of length over 1. -/
def emitComponent (fuzzy : Bool) (tok : String) : List String :=
  let subtokens := splitOnDot tok
  (if 1 < tok.length then [tok] else []) ++
    (if fuzzy && 1 < subtokens.length then
      subtokens.filter (fun s => 1 < s.length)
    else [])

/-- The indexed `for` loop of `tokenize`: a bare `$` emits `positional`
then `operator`; a component whose atomic-phrase partner follows is joined
with it (consuming both); otherwise the component is emitted. -/
def tokLoop (fuzzy : Bool) : List String → List String
  | [] => []
  | [tok] =>
    if tok = "$" then ["positional", "operator"] else emitComponent fuzzy tok
  | tok :: next :: rest2 =>
    if tok = "$" then "positional" :: "operator" :: tokLoop fuzzy (next :: rest2)
    else if atomicPhraseMap tok = some next then
      (tok ++ " " ++ next) :: tokLoop fuzzy rest2
    else emitComponent fuzzy tok ++ tokLoop fuzzy (next :: rest2)

/-- `tokenize(text, fuzzy = false)` of `Stemmer.ts`. -/
def tokenize (text : String) (fuzzy : Bool) : List String :=
  tokLoop fuzzy (componentsOf text)

/-- The stop-word set of `Stemmer.ts`. -/
def stopWords : List String :=
  ["a", "able", "about", "across", "after", "all", "almost", "also", "am",
   "among", "an", "and", "any", "are", "as", "at", "be", "because", "been",
   "but", "by", "can", "cannot", "could", "dear", "did", "do", "does",
   "either", "else", "ever", "every", "for", "from", "got", "had", "has",
   "have", "he", "her", "hers", "him", "his", "how", "however", "i", "i.e.",
   "if", "important", "in", "into", "is", "it", "its", "just", "may", "me",
   "might", "most", "must", "my", "neither", "no", "nor", "of", "off",
   "often", "on", "only", "or", "other", "our", "own", "rather", "said",
   "say", "says", "she", "should", "since", "so", "some", "than", "that",
   "the", "their", "them", "then", "there", "these", "they", "this", "tis",
   "to", "too", "twas", "us", "wants", "was", "we", "were", "what", "where",
   "which", "while", "who", "whom", "why", "will", "with", "would", "yet",
   "you", "your", "e.g."]

def isStopWord (w : String) : Bool := w ∈ stopWords

end Stemmer

/-! ## Tokenizer, JavaScript generation (the `Stemmer.js` exporting
`{stem, isStopWord, tokenize}`, the module `require`d by `src/fts/fts.js`
and `src/fts/Query.js`).  Differences from `Stemmer.ts`: the separator
class is `/[^\w$.]+/` (no `%`), there is no bare-`$` rule, the atomic map
lacks `real → time`, and the fuzzy branch always pushes every
dot-subcomponent of length over 1 — for a dotless component this emits the
component a second time. -/

namespace StemmerJS

def atomicPhraseMap (w : String) : Option String :=
  if w = "ops" then some "manager"
  else if w = "cloud" then some "manager"
  else none

/-- A character matched by the separator class of `/[^\w$.]+/`. -/
def isSep (c : Char) : Bool := !(Stemmer.isWordChar c || c = '$' || c = '.')

def componentsOf (text : String) : List String :=
  (Stemmer.splitRuns isSep text.data).map Stemmer.cleanComponent

/-- `if (token.length > 1) tokens.push(token); if (fuzzy) for (const
subtoken of token.split('.')) if (subtoken.length > 1) tokens.push(subtoken)`. -/
def emitComponent (fuzzy : Bool) (tok : String) : List String :=
  (if 1 < tok.length then [tok] else []) ++
    (if fuzzy then (Stemmer.splitOnDot tok).filter (fun s => 1 < s.length)
     else [])

def tokLoop (fuzzy : Bool) : List String → List String
  | [] => []
  | [tok] => emitComponent fuzzy tok
  | tok :: next :: rest2 =>
    if atomicPhraseMap tok = some next then
      (tok ++ " " ++ next) :: tokLoop fuzzy rest2
    else emitComponent fuzzy tok ++ tokLoop fuzzy (next :: rest2)

def tokenize (text : String) (fuzzy : Bool) : List String :=
  tokLoop fuzzy (componentsOf text)

/-- The stop-word set of this `Stemmer.js` (it lacks `this`, and lists
`i.e.`/`e.g.` at the end). -/
def stopWords : List String :=
  ["a", "able", "about", "across", "after", "all", "almost", "also", "am",
   "among", "an", "and", "any", "are", "as", "at", "be", "because", "been",
   "but", "by", "can", "cannot", "could", "dear", "did", "do", "does",
   "either", "else", "ever", "every", "for", "from", "got", "had", "has",
   "have", "he", "her", "hers", "him", "his", "how", "however", "i", "if",
   "important", "in", "into", "is", "it", "its", "just", "may", "me",
   "might", "most", "must", "my", "neither", "no", "nor", "of", "off",
   "often", "on", "only", "or", "other", "our", "own", "rather", "said",
   "say", "says", "she", "should", "since", "so", "some", "than", "that",
   "the", "their", "them", "then", "there", "these", "they", "tis", "to",
   "too", "twas", "us", "wants", "was", "we", "were", "what", "where",
   "which", "while", "who", "whom", "why", "will", "with", "would", "yet",
   "you", "your", "i.e.", "e.g."]

def isStopWord (w : String) : Bool := w ∈ stopWords

end StemmerJS

/-! ## The balancing worker pool (`src/pool.ts`)

A pool element is modelled by its `backlog` (a count of in-flight requests,
hence a natural number) together with a flag recording membership in the
pool's `suspended` set (the TS set holds object identities; elements are
distinguished by their position in the `pool` array, so a per-position flag
is an equivalent rendering).  `get` reads the pool and returns an element
without mutating anything, which the pure function below renders directly.
-/

namespace Pool

/-- The scan of `get()`.  `min` is `none` for the initial `null`;
`element.backlog < (min === null ? Infinity : min.backlog)` is the strict
comparison below (a natural number is always below `Infinity`).  `i` is the
array index of the element under the cursor; the result carries the index
and backlog of the chosen element. -/
def getAux : List (Nat × Bool) → Nat → Option (Nat × Nat) → Option (Nat × Nat)
  | [], _, min => min
  | e :: rest, i, min =>
    if e.2 then getAux rest (i + 1) min
    else
      match min with
      | none => getAux rest (i + 1) (some (i, e.1))
      | some m =>
        if e.1 < m.2 then getAux rest (i + 1) (some (i, e.1))
        else getAux rest (i + 1) (some m)

/-- `Pool.get()`: the least-loaded unsuspended element, or the
`pool-unavailable` error when the scan found none. -/
def get (pool : List (Nat × Bool)) : Except String (Nat × Nat) :=
  match getAux pool 0 none with
  | none => Except.error "pool-unavailable"
  | some m => Except.ok m

end Pool

/-! ## Queries and phrase checking (`src/fts/Query.js`, `src/fts/Query.ts`)

`haveContiguousPath` and `haveContiguousKeywords` are identical in the two
generations; `checkPhrases` differs (see below).  Token positions are the
global `termID` counter values, hence natural numbers.
-/

/-- The recursion of `haveContiguousPath(tree, lastCandidate)` descends on
`tree.slice(1)`; we encode that descent by structural recursion on the tree
length (the first argument, always instantiated with `tree.length`, so the
middle branch is unreachable). -/
def hcpGo : Nat → List (List Nat) → Option Nat → Bool
  | _, [], _ => true
  | 0, _ :: _, _ => false
  | n + 1, ps :: rest, last =>
    ps.any fun element =>
      (match last with
        | none => true
        | some l => element == l + 1) &&
      hcpGo n rest (some element)

/-- `haveContiguousPath(tree, lastCandidate)`: some choice of one element
per level, in order, each one exactly one above the previous. -/
def haveContiguousPath (tree : List (List Nat)) (last : Option Nat) : Bool :=
  hcpGo tree.length tree last

/-- The path-building loop of `haveContiguousKeywords`: `none` when some
component is missing from the keywords map (the JS early `return false`). -/
def collectPath (components : List String) (keywords : List (String × List Nat)) :
    Option (List (List Nat)) :=
  match components with
  | [] => some []
  | c :: cs =>
    match lookupKey keywords c with
    | none => none
    | some ps => (collectPath cs keywords).map (ps :: ·)

/-- `haveContiguousKeywords(phraseComponents, keywords)`. -/
def haveContiguousKeywords (components : List String)
    (keywords : List (String × List Nat)) : Bool :=
  match collectPath components keywords with
  | none => false
  | some path => haveContiguousPath path none

/-- A parsed search query: `{terms, phrases, stemmedPhrases, filter}`.
`terms` is the JS `Set`, kept as a duplicate-free list in insertion order. -/
structure Query where
  terms : List String
  phrases : List String
  stemmedPhrases : List (List String)
  filter : Nat → Bool

/-- `Query.checkPhrases` of the TypeScript `Query.ts`: every stemmed phrase
must have a contiguous configuration. -/
def Query.checkPhrases (q : Query) (tokens : List (String × List Nat)) : Bool :=
  q.stemmedPhrases.all fun phraseTokens => haveContiguousKeywords phraseTokens tokens

/-- `Query.checkPhrases` of the JavaScript `Query.js`.  Its loop body is

```
let haveMatch = false
if (haveContiguousKeywords(phraseTokens, tokens)) { haveMatch = true; break }
if (!haveMatch) { return false }
```

so the first phrase decides: a contiguous first phrase `break`s straight to
the final `return true` without examining the remaining phrases, and a
non-contiguous first phrase returns `false`. -/
def QueryJS.checkPhrases (q : Query) (tokens : List (String × List Nat)) : Bool :=
  match q.stemmedPhrases with
  | [] => true
  | phraseTokens :: _ => haveContiguousKeywords phraseTokens tokens

/-- `MANDATORY` of `src/correlations.ts`.  Declared there with the comment
"Words that, if given in the query, are required to exist in the output
results." -/
def MANDATORY : List String := ["realm", "atlas", "compass"]

/-- `addTerms(terms)`: `Set.add` each term. -/
def Query.addTerms (terms : List String) (incoming : List String) : List String :=
  incoming.foldl pushNew terms

/-- The capture of `part.match(/\s*"([^"]*)"?\s*/)`: the characters after
the first double quote up to (not including) the next double quote or the
end; `none` when the regex does not match, i.e. when `part` has no double
quote at all. -/
def extractPhrase (part : String) : Option String :=
  match part.data.dropWhile (fun c => c ≠ '"') with
  | [] => none
  | _ :: rest => some (String.mk (rest.takeWhile (fun c => c ≠ '"')))

/-- `Boolean(part.match(/^\s*"/))`: optional whitespace then a quote. -/
def startsQuote (part : String) : Bool :=
  match part.data.dropWhile (fun c => c.isWhitespace) with
  | '"' :: _ => true
  | _ => false

/-- JS `String.prototype.trim` (on the ASCII text this program handles). -/
def jsTrim (s : String) : String :=
  String.mk (((s.data.dropWhile Char.isWhitespace).reverse.dropWhile
    Char.isWhitespace).reverse)

/-- `processPart(part)` of `Query.ts`: `tokenize(part, false)`. -/
def processPart (part : String) : List String := Stemmer.tokenize part false

/-- The state built up by the `Query.ts` constructor loop. -/
structure QueryAcc where
  terms : List String
  phrases : List String
  stemmedPhrases : List (List String)

/-- One iteration of the constructor's `for (const part of parts)` loop,
with `stem` a parameter (Porter2 is not among the sources). -/
def queryStep (stem : String → String) (acc : QueryAcc) (part : String) :
    QueryAcc :=
  if startsQuote part then
    match extractPhrase part with
    | none =>
      -- "This is a phrase fragment"
      { acc with terms := Query.addTerms acc.terms (processPart part) }
    | some raw =>
      let phrase := jsTrim (String.mk (raw.data.map Char.toLower))
      let phraseParts := processPart phrase
      { terms := Query.addTerms acc.terms phraseParts
        phrases := acc.phrases ++ [phrase]
        stemmedPhrases := acc.stemmedPhrases ++
          [(phraseParts.filter (fun t => !Stemmer.isStopWord t)).map stem] }
  else
    { acc with terms := Query.addTerms acc.terms (processPart part) }

/-- The `Query.ts` constructor run over an already-split `parts` list. -/
def Query.ofParts (stem : String → String) (parts : List String) : Query :=
  let acc := parts.foldl (queryStep stem) ⟨[], [], []⟩
  { terms := acc.terms
    phrases := acc.phrases
    stemmedPhrases := acc.stemmedPhrases
    filter := fun _ => true }

/-- The `Query.ts` constructor on a query string that contains no double
quote.  The split pattern `/((?:\s+|^)"[^"]+"(?:\s+|$))/` requires a
literal `"`, so on such a string it never matches and
`queryString.split(...)` returns the string whole: `parts = [queryString]`. -/
def Query.parseBare (stem : String → String) (queryString : String) : Query :=
  Query.ofParts stem [queryString]

/-! ## The inverted index (`src/fts/fts.js`)

`FTSIndex` and its operations.  The `stem` function (`Porter2.js`, not among
the sources) is a parameter throughout.  JS numbers that only ever hold
exact values (weights, counts, closeness) are `ℚ`; scores are `ℝ`.
-/

structure TermEntry where
  docs : List Nat
  positions : List (Nat × List Nat)
  timesAppeared : List (String × Nat)
deriving DecidableEq

def TermEntry.empty : TermEntry := ⟨[], [], []⟩

/-- `TermEntry.register(fieldName, docID)`. -/
def TermEntry.register (te : TermEntry) (fieldName : String) (docID : Nat) :
    TermEntry :=
  { te with
    docs := te.docs ++ [docID]
    timesAppeared := setKey te.timesAppeared fieldName
      ((lookupKey te.timesAppeared fieldName).getD 0 + 1) }

/-- `TermEntry.addTokenPosition(docID, tokenID)`. -/
def TermEntry.addTokenPosition (te : TermEntry) (docID tokenID : Nat) :
    TermEntry :=
  match lookupNat te.positions docID with
  | none => { te with positions := setNat te.positions docID [tokenID] }
  | some ps => { te with positions := setNat te.positions docID (ps ++ [tokenID]) }

structure DocumentEntry where
  len : Nat
  termFrequencies : List (String × Nat)
deriving DecidableEq

structure Field where
  name : String
  documents : List (Nat × DocumentEntry)
  weight : ℚ
  totalTokensSeen : Nat
deriving DecidableEq

/-- `get lengthWeight()`: documents divided by the total number of distinct
terms over the documents.  The JS getter memoizes into `_lengthWeight` and
`add` clears the memo, so the value always agrees with this derived form.
(In JS an empty index yields `NaN`/`Infinity` here where `ℚ` division by
zero yields 0; no document can score in such a field anyway.) -/
def Field.lengthWeight (f : Field) : ℚ :=
  (f.documents.length : ℚ) /
    ((f.documents.map (fun d => d.2.termFrequencies.length)).sum : ℚ)

/-- A transient per-query match record.  The JS `incomingNeighbors` /
`outgoingNeighbors` arrays hold references to other `Match` objects in the
base set; we record the doc ids that identify them there. -/
structure Match where
  docId : Nat
  relevancyScore : ℝ
  terms : List String
  score : ℝ
  authorityScore : ℝ
  hubScore : ℝ
  incomingNeighbors : List Nat
  outgoingNeighbors : List Nat

/-- `new Match(docID, relevancyScore, initialTerms)`. -/
noncomputable def Match.mkNew (docID : Nat) (relevancyScore : ℝ)
    (initialTerms : List String) : Match :=
  ⟨docID, relevancyScore, initialTerms, 0, 1, 1, [], []⟩

structure FTSIndex where
  fields : List Field
  trie : Trie.Node
  terms : List (String × TermEntry)
  docID : Nat
  termID : Nat
  documentWeights : List (Nat × ℚ)
  linkGraph : List (String × List String)
  inverseLinkGraph : List (String × List String)
  urlToId : List (String × Nat)
  idToUrl : List (Nat × String)
  wordCorrelations : List (String × List (String × ℚ))

/-- `new FTSIndex(fields)`. -/
def FTSIndex.init (fields : List (String × ℚ)) : FTSIndex :=
  { fields := fields.map (fun f => ⟨f.1, [], f.2, 0⟩)
    trie := Trie.emptyNode
    terms := []
    docID := 0
    termID := 0
    documentWeights := []
    linkGraph := []
    inverseLinkGraph := []
    urlToId := []
    idToUrl := []
    wordCorrelations := [] }

/-- The suffix test of `url.replace(/\/index.html$/, '/')`; the unescaped
`.` of the pattern matches any character. -/
def matchesIndexHtml (s : List Char) : Bool :=
  match s with
  | ['/', 'i', 'n', 'd', 'e', 'x', _, 'h', 't', 'm', 'l'] => true
  | _ => false

/-- `normalizeURL(url)`. -/
def normalizeURL (url : String) : String :=
  if matchesIndexHtml (url.data.drop (url.length - 11)) then
    String.mk (url.data.take (url.length - 11)) ++ "/"
  else url

/-- JS `Array.prototype.join(' ')`. -/
def joinSpace : List String → String
  | [] => ""
  | [s] => s
  | s :: rest => s ++ " " ++ joinSpace rest

def startsWithChar (s : String) (c : Char) : Bool :=
  match s.data with
  | d :: _ => d = c
  | [] => false

def startsWithTwo (s : String) (c1 c2 : Char) : Bool :=
  match s.data with
  | d1 :: d2 :: _ => d1 = c1 && d2 = c2
  | _ => false

/-- The body of `correlateWord` acting on the `wordCorrelations` map:
`word` is tokenized (non-fuzzily), stemmed and space-joined; the
`(stem synonym, closeness)` pair is appended to the key's list. -/
def corrAdd (stem : String → String)
    (wc : List (String × List (String × ℚ))) (word synonym : String)
    (closeness : ℚ) : List (String × List (String × ℚ)) :=
  let w := joinSpace ((StemmerJS.tokenize word false).map stem)
  let s := stem synonym
  match lookupKey wc w with
  | none => setKey wc w [(s, closeness)]
  | some entry => setKey wc w (entry ++ [(s, closeness)])

/-- `FTSIndex.correlateWord(word, synonym, closeness)`. -/
def FTSIndex.correlateWord (stem : String → String) (idx : FTSIndex)
    (word synonym : String) (closeness : ℚ) : FTSIndex :=
  { idx with wordCorrelations := corrAdd stem idx.wordCorrelations word synonym closeness }

/-- The state threaded through the token loop of `add`: the index parts the
loop mutates plus the per-field `termFrequencies` map and token count. -/
structure TokScan where
  terms : List (String × TermEntry)
  trie : Trie.Node
  termID : Nat
  wordCorrelations : List (String × List (String × ℚ))
  termFrequencies : List (String × Nat)
  numberOfTokens : Nat

/-- One iteration of `for (let token of tokens)` in `add`.  (The `onToken`
callback only feeds the worker's spelling dictionary and never touches the
index.)  Stop words are skipped; `%%`- and `$`/`%`-prefixed tokens are kept
verbatim and registered as 0.9-correlations of their stripped stem; other
tokens are stemmed.  On the first occurrence in this field the document is
inserted into the trie and registered on the term entry; every occurrence
records the bumped global `termID` as a position. -/
def processToken (stem : String → String) (fieldName : String) (docID : Nat)
    (a : TokScan) (token : String) : TokScan :=
  if StemmerJS.isStopWord token then a
  else
    let sigil := startsWithTwo token '%' '%' ||
      startsWithChar token '$' || startsWithChar token '%'
    let wc :=
      if startsWithTwo token '%' '%' then
        corrAdd stem a.wordCorrelations (String.mk (token.data.drop 2)) token (9/10)
      else if startsWithChar token '$' || startsWithChar token '%' then
        corrAdd stem a.wordCorrelations (String.mk (token.data.drop 1)) token (9/10)
      else a.wordCorrelations
    let tok := if sigil then token else stem token
    let termID := a.termID + 1
    let indexEntry := (lookupKey a.terms tok).getD TermEntry.empty
    let count := (lookupKey a.termFrequencies tok).getD 0
    let trie := if count = 0 then Trie.insert a.trie tok.data docID else a.trie
    let entry1 := if count = 0 then indexEntry.register fieldName docID else indexEntry
    let entry2 := entry1.addTokenPosition docID termID
    { terms := setKey a.terms tok entry2
      trie := trie
      termID := termID
      wordCorrelations := wc
      termFrequencies := setKey a.termFrequencies tok (count + 1)
      numberOfTokens := a.numberOfTokens + 1 }

/-- The state threaded through the field loop of `add`. -/
structure AddScan where
  fieldsDone : List Field
  terms : List (String × TermEntry)
  trie : Trie.Node
  termID : Nat
  wordCorrelations : List (String × List (String × ℚ))

/-- A document as `add` consumes it: `document[field.name]` per field, plus
`links`, `url` and `weight`. -/
structure DocInput where
  fieldText : String → Option String
  links : Option (List String)
  url : Option String
  weight : Option ℚ

/-- One iteration of `for (const field of this.fields)` in `add`.  A missing
or empty (falsy) text skips the field; otherwise the text is tokenized
fuzzily and fed through the token loop, the global `termID` is bumped once
more ("to prevent accidental adjacency"), and the field's statistics and
`DocumentEntry` are updated.  (`field._lengthWeight = null` resets the memo
of the derived `Field.lengthWeight`.) -/
def processField (stem : String → String) (doc : DocInput) (docID : Nat)
    (a : AddScan) (field : Field) : AddScan :=
  let skip : Bool := match doc.fieldText field.name with
    | none => true
    | some text => text = ""
  if skip then { a with fieldsDone := a.fieldsDone ++ [field] }
  else
    let text := (doc.fieldText field.name).getD ""
    let tokens := StemmerJS.tokenize text true
    let t := tokens.foldl (processToken stem field.name docID)
      { terms := a.terms, trie := a.trie, termID := a.termID
        wordCorrelations := a.wordCorrelations
        termFrequencies := [], numberOfTokens := 0 }
    { fieldsDone := a.fieldsDone ++
        [{ field with
            totalTokensSeen := field.totalTokensSeen + t.numberOfTokens
            documents := setNat field.documents docID
              ⟨t.numberOfTokens, t.termFrequencies⟩ }]
      terms := t.terms
      trie := t.trie
      termID := t.termID + 1
      wordCorrelations := t.wordCorrelations }

/-- `FTSIndex.add(document)`: assign the next dense id, record the link
graph when both `links` and `url` are present (`linkGraph` keeps the raw
link list; the inverse graph and the url↔id maps use normalized URLs), run
every configured field through the field loop, record the document weight
(`document.weight || 1`, so a weight of 0 also becomes 1) and advance
`docID`. -/
def FTSIndex.add (stem : String → String) (idx : FTSIndex) (doc : DocInput) :
    FTSIndex :=
  let docID := idx.docID
  let idx1 :=
    if doc.links.isSome && doc.url.isSome then
      let url := normalizeURL (doc.url.getD "")
      let links := doc.links.getD []
      let ilg := links.foldl (fun g href0 =>
        let href := normalizeURL href0
        setKey g href ((lookupKey g href).getD [] ++ [url])) idx.inverseLinkGraph
      { idx with
        linkGraph := setKey idx.linkGraph url links
        inverseLinkGraph := ilg
        urlToId := setKey idx.urlToId url docID
        idToUrl := setNat idx.idToUrl docID url }
    else idx
  let a := idx1.fields.foldl (processField stem doc docID)
    { fieldsDone := [], terms := idx1.terms, trie := idx1.trie
      termID := idx1.termID, wordCorrelations := idx1.wordCorrelations }
  { idx1 with
    fields := a.fieldsDone
    terms := a.terms
    trie := a.trie
    termID := a.termID
    wordCorrelations := a.wordCorrelations
    documentWeights := setNat idx1.documentWeights docID
      (match doc.weight with
        | some w => if w = 0 then 1 else w
        | none => 1)
    docID := docID + 1 }

/-- `Math.max(stemmedTerms.get(correlation) || 0, weight)` merged back into
the map. -/
def applyCorrEntry (m : List (String × ℚ)) (e : String × ℚ) :
    List (String × ℚ) :=
  setKey m e.1 (max ((lookupKey m e.1).getD 0) e.2)

/-- Process all correlations registered under one key. -/
def applyCorrKey (wc : List (String × List (String × ℚ)))
    (m : List (String × ℚ)) (key : String) : List (String × ℚ) :=
  match lookupKey wc key with
  | none => m
  | some correlations => correlations.foldl applyCorrEntry m

/-- The indexed loop of `collectCorrelations`: each position contributes
its stemmed term, and, when a successor exists, the stemmed-bigram key. -/
def ccLoop (stem : String → String)
    (wc : List (String × List (String × ℚ))) :
    List String → List (String × ℚ) → List (String × ℚ)
  | [], m => m
  | [t], m => applyCorrKey wc m (stem t)
  | t :: t2 :: rest, m =>
    let m1 := applyCorrKey wc m (stem t)
    let m2 := applyCorrKey wc m1 (stem t ++ " " ++ stem t2)
    ccLoop stem wc (t2 :: rest) m2

/-- `FTSIndex.collectCorrelations(terms)`: seed every stemmed term at
weight 1 (`new Map(terms.map((term) => [stem(term), 1]))`), then merge the
correlations of each term and adjacent-pair key. -/
def FTSIndex.collectCorrelations (stem : String → String) (idx : FTSIndex)
    (terms : List String) : List (String × ℚ) :=
  let stemmedTerms := terms.foldl (fun m t => setKey m (stem t) 1) []
  ccLoop stem idx.wordCorrelations terms stemmedTerms

/-- Merge one correlation list into the map, recording which synonyms were
new keys (those a JS `Map` iteration would visit later). -/
def expandEntries : List (String × ℚ) → List (String × ℚ) → List String →
    List (String × ℚ) × List String
  | [], m, news => (m, news)
  | e :: rest, m, news =>
    let isNew := (lookupKey m e.1).isNone
    expandEntries rest (applyCorrEntry m e) (if isNew then news ++ [e.1] else news)

def totalSynCount (wc : List (String × List (String × ℚ))) : Nat :=
  (wc.map (fun e => e.2.length)).sum

/-- The extra correlation pass at the top of `search`:
`for (const term of stemmedTerms.keys()) …` while the same loop body keeps
calling `stemmedTerms.set`.  A JS `Map` iterator also visits keys appended
during the iteration, so the pass is a worklist: processing a key merges
its correlation list and enqueues any synonym that became a fresh key.  The
structural fuel only bounds the recursion: each queue element consumes one
unit, at most `initial keys + total synonym entries` elements are ever
enqueued (a synonym is enqueued only when it first becomes a key), and the
fuel is larger, so it never runs out. -/
def expandLoop (wc : List (String × List (String × ℚ))) :
    Nat → List String → List (String × ℚ) → List (String × ℚ)
  | 0, _, m => m
  | _ + 1, [], m => m
  | fuel + 1, k :: queue, m =>
    match lookupKey wc k with
    | none => expandLoop wc fuel queue m
    | some corrs =>
      let r := expandEntries corrs m []
      expandLoop wc fuel (queue ++ r.2) r.1

/-- The `stemmedTerms` map as `search` uses it: `collectCorrelations` plus
the extra pass above. -/
def searchStemmedTerms (stem : String → String) (idx : FTSIndex)
    (q : Query) : List (String × ℚ) :=
  let m := idx.collectCorrelations stem q.terms
  expandLoop idx.wordCorrelations
    (m.length + totalSynCount idx.wordCorrelations + 1) (m.map Prod.fst) m

/-- `collectMatchesFromTrie(terms)`: prefix-search every term, pushing all
`(docID, actual-term set)` entries in order. -/
def FTSIndex.collectMatchesFromTrie (idx : FTSIndex) (terms : List String) :
    List (Nat × List String) :=
  terms.foldl (fun resultSet term =>
    resultSet ++ (Trie.search idx.trie term.data true).map
      (fun e => (e.1, e.2.map String.mk))) []

open Classical in
/-- `dirichletPlus(termFrequencyInQuery, termFrequencyInDoc,
termProbabilityInLanguage, docLength, queryLength)` (Lv & Zhai 2011), with
`delta = 0.05` and `mu = 2000`.  A zero term probability short-circuits to
0 ("a nonexistent word should probably be ignored"), which also keeps the
two divisions by `mu * termProbabilityInLanguage` out of reach. -/
noncomputable def dirichletPlus (termFrequencyInQuery termFrequencyInDoc
    termProbabilityInLanguage docLength queryLength : ℝ) : ℝ :=
  if termProbabilityInLanguage = 0 then 0
  else
    let delta : ℝ := 5 / 100
    let mu : ℝ := 2000
    let term2 :=
      Real.logb 2 (1 + termFrequencyInDoc / (mu * termProbabilityInLanguage)) +
        Real.logb 2 (1 + delta / (mu * termProbabilityInLanguage))
    let term3 := queryLength * Real.logb 2 (mu / (docLength + mu))
    termFrequencyInQuery * term2 + term3

/-- One field's contribution to a `(docID, term)` pair's
`termRelevancyScore` in `search`: zero when the document has no entry in
the field, otherwise `dirichletPlus(...) * field.weight *
field.lengthWeight * documentWeights.get(docID)` with
`termWeight = stemmedTerms.get(term) || 0.1` (so an absent or zero weight
falls back to 0.1), `termFrequencyInDoc = termFrequencies.get(term) || 0`
and `termProbability = (timesAppeared.get(field.name) || 0) /
Math.max(field.totalTokensSeen, 500)`. -/
noncomputable def termFieldScore (idx : FTSIndex)
    (stemmedTerms : List (String × ℚ)) (qlen : Nat) (docID : Nat)
    (term : String) (te : TermEntry) (f : Field) : ℝ :=
  match lookupNat f.documents docID with
  | none => 0
  | some docEntry =>
    let termWeight : ℚ := match lookupKey stemmedTerms term with
      | some w => if w = 0 then 1/10 else w
      | none => 1/10
    let tfd : Nat := (lookupKey docEntry.termFrequencies term).getD 0
    let p : ℚ := ((lookupKey te.timesAppeared f.name).getD 0 : ℚ) /
      (max f.totalTokensSeen 500 : ℚ)
    dirichletPlus (termWeight : ℝ) (tfd : ℝ) (p : ℝ) (docEntry.len : ℝ)
        (qlen : ℝ) *
      (f.weight : ℝ) * (f.lengthWeight : ℝ) *
      (((lookupNat idx.documentWeights docID).getD 1 : ℚ) : ℝ)

/-- The `termRelevancyScore` accumulated over all fields for one
`(docID, term)` pair.  (`this.terms.get(term)` cannot miss for a term the
trie produced; the `TermEntry.empty` default mirrors that unreachability.) -/
noncomputable def termRelevancy (idx : FTSIndex)
    (stemmedTerms : List (String × ℚ)) (qlen : Nat) (docID : Nat)
    (term : String) : ℝ :=
  let te := (lookupKey idx.terms term).getD TermEntry.empty
  idx.fields.foldl (fun acc f => acc + termFieldScore idx stemmedTerms qlen docID term te f) 0

/-- Fold one trie tuple into the `matchSet`: documents rejected by
`query.filter` are skipped; each actual term of the tuple accumulates its
`termRelevancyScore` onto the document's `Match` (creating it on first
contact) and joins the match's term set. -/
noncomputable def scoreTuple (idx : FTSIndex)
    (stemmedTerms : List (String × ℚ)) (qlen : Nat) (q : Query)
    (matchSet : List (Nat × Match)) (tuple : Nat × List String) :
    List (Nat × Match) :=
  if q.filter tuple.1 then
    tuple.2.foldl (fun ms term =>
      let trs := termRelevancy idx stemmedTerms qlen tuple.1 term
      match lookupNat ms tuple.1 with
      | some m => setNat ms tuple.1
          { m with relevancyScore := m.relevancyScore + trs
                   terms := pushNew m.terms term }
      | none => ms ++ [(tuple.1, Match.mkNew tuple.1 trs [term])]) matchSet
  else matchSet

/-- The candidate-generation and scoring phase of `FTSIndex.search` (lines
up to the phrase filter): build the stemmed-term weights, prefix-search
the trie for every key, and fold every resulting tuple into the match set.
`originalTerms.size` is `query.terms` (already a set) counted. -/
noncomputable def FTSIndex.searchMatchSet (stem : String → String)
    (idx : FTSIndex) (q : Query) : List (Nat × Match) :=
  let stemmedTerms := searchStemmedTerms stem idx q
  let qlen := q.terms.length
  (idx.collectMatchesFromTrie (stemmedTerms.map Prod.fst)).foldl
    (scoreTuple idx stemmedTerms qlen q) []

/-- The relevancy score `search` reports for a document (0 when the
document is not in the match set). -/
noncomputable def relevancyOf (ms : List (Nat × Match)) (docID : Nat) : ℝ :=
  match lookupNat ms docID with
  | some m => m.relevancyScore
  | none => 0

/-- The `tokens` map the phrase filter of `search` hands to
`query.checkPhrases`: each of the match's terms looked up in the term map
and its positions for this document, failing (`return false` in the JS
filter callback) when either lookup misses. -/
def buildPhraseTokens (idxTerms : List (String × TermEntry)) (docId : Nat) :
    List String → Option (List (String × List Nat))
  | [] => some []
  | term :: rest =>
    match lookupKey idxTerms term with
    | none => none
    | some te =>
      match lookupNat te.positions docId with
      | none => none
      | some positions =>
        (buildPhraseTokens idxTerms docId rest).map
          (fun m => (term, positions) :: m)

/-- The phrase post-filter predicate of `FTSIndex.search` for one match
(the callback of `rootSet.filter`), composed with the JS generation's
`checkPhrases`. -/
def phraseSurvives (idxTerms : List (String × TermEntry)) (q : Query)
    (m : Match) : Bool :=
  match buildPhraseTokens idxTerms m.docId m.terms with
  | none => false
  | some tokens => QueryJS.checkPhrases q tokens

/-- `if (query.phrases.length) rootSet = rootSet.filter(...)`. -/
def rootSetPhraseFilter (idxTerms : List (String × TermEntry)) (q : Query)
    (rootSet : List Match) : List Match :=
  if q.phrases.length ≠ 0 then rootSet.filter (phraseSurvives idxTerms q)
  else rootSet

/-- `computeRelevancyThreshold(matches)`: the mean of the relevancy
scores, then `Math.sqrt(1 / (matches.length - 1) * sum)` over the squared
deviations. -/
noncomputable def computeRelevancyThreshold (ms : List Match) : ℝ :=
  let meanScore := (ms.foldl (fun a m => a + m.relevancyScore) 0) /
    (ms.length : ℝ)
  let sum := ms.foldl (fun a m => a + (m.relevancyScore - meanScore) ^ 2) 0
  Real.sqrt (1 / ((ms.length : ℝ) - 1) * sum)

open Classical in
/-- `matches.filter((match) => match.relevancyScore > 0)` in `hits` ("Cut
anything with zero relevancy").  The HITS iterations that precede it only
rewrite `authorityScore`/`hubScore`, never `relevancyScore`. -/
noncomputable def hitsSurvivors (ms : List Match) : List Match :=
  ms.filter (fun m => decide (0 < m.relevancyScore))

/-- The `relevancyScoreThreshold` used by `hits` for score normalization
and penalties. -/
noncomputable def hitsRelevancyThreshold (ms : List Match) : ℝ :=
  computeRelevancyThreshold (hitsSurvivors ms)

/-- Population standard deviation (divisor `n`), as the specification
describes the threshold; written from the specification's words, for
comparison with `computeRelevancyThreshold`. -/
noncomputable def popStdDev (xs : List ℝ) : ℝ :=
  Real.sqrt (((xs.map (fun x => (x - xs.sum / (xs.length : ℝ)) ^ 2)).sum) /
    (xs.length : ℝ))

/-- Sample standard deviation (Bessel divisor `n - 1`), written
independently in the textbook form, for comparison with
`computeRelevancyThreshold`. -/
noncomputable def sampleStdDev (xs : List ℝ) : ℝ :=
  Real.sqrt (((xs.map (fun x => (x - xs.sum / (xs.length : ℝ)) ^ 2)).sum) /
    ((xs.length : ℝ) - 1))

/-- The incoming-neighbor id list `getNeighbors` computes for a document
(the body of `if (!incomingNeighbors)`; the memo array caches exactly this
value): every ancestor URL of the document's URL resolved through
`urlToId`, skipping unresolved URLs (`ancestorID === undefined`) and —
because `if (ancestorID)` tests truthiness — also the id 0. -/
def FTSIndex.incomingNeighborIds (idx : FTSIndex) (docId : Nat) : List Nat :=
  let ancestors := match lookupNat idx.idToUrl docId with
    | none => []
    | some url => (lookupKey idx.inverseLinkGraph url).getD []
  ancestors.foldl (fun s ancestorURL =>
    match lookupKey idx.urlToId ancestorURL with
    | none => s
    | some ancestorID => if ancestorID ≠ 0 then pushNew s ancestorID else s) []

/-- The outgoing-neighbor id list `getNeighbors` computes for a document:
every raw link of `linkGraph.get(url)` resolved through `urlToId`, with
the same `undefined` and truthiness (`if (descendentID)`) skips. -/
def FTSIndex.outgoingNeighborIds (idx : FTSIndex) (docId : Nat) : List Nat :=
  let links := match lookupNat idx.idToUrl docId with
    | none => []
    | some url => (lookupKey idx.linkGraph url).getD []
  links.foldl (fun s link =>
    match lookupKey idx.urlToId link with
    | none => s
    | some descendentID => if descendentID ≠ 0 then pushNew s descendentID else s) []

/-- The base-set update of `getNeighbors`: each neighbor id absent from
the base set receives a zero-relevancy placeholder
`new Match(neighborID, 0, null)`. -/
noncomputable def expandBaseSet (baseSet : List (Nat × Match))
    (neighborIds : List Nat) : List (Nat × Match) :=
  neighborIds.foldl (fun bs neighborID =>
    match lookupNat bs neighborID with
    | some _ => bs
    | none => bs ++ [(neighborID, Match.mkNew neighborID 0 [])]) baseSet

/-! ## Statement-side views and concrete scenarios -/

/-- Membership in a trie search result: the id is mapped to a token set
containing the token. -/
def hitMem (m : List (Nat × List (List Char))) (id : Nat) (u : List Char) :
    Prop :=
  ∃ ts, (id, ts) ∈ m ∧ u ∈ ts

/-- The term map of a small index (document 7 contains `quoth` at global
position 0, `raven` at 1 and `crow` at 10), used to exercise the phrase
post-filter. -/
def phraseIdxTerms : List (String × TermEntry) :=
  [("quoth", ⟨[7], [(7, [0])], [("text", 1)]⟩),
   ("raven", ⟨[7], [(7, [1])], [("text", 1)]⟩),
   ("crow", ⟨[7], [(7, [10])], [("text", 1)]⟩)]

/-- A two-phrase query: `"quoth raven"` is contiguous in document 7
(positions 0, 1) while `"raven crow"` is not (positions 1, 10). -/
def phraseQuery : Query :=
  ⟨["quoth", "raven", "crow"], ["quoth raven", "raven crow"],
   [["quoth", "raven"], ["raven", "crow"]], fun _ => true⟩

/-- Document 7 as the scoring phase would deliver it to the phrase filter:
all three terms matched. -/
def phraseMatch7 : Match :=
  ⟨7, 0, ["quoth", "raven", "crow"], 0, 1, 1, [], []⟩

/-- A one-field index holding a single document whose text is `foobar`
(the JS fuzzy tokenizer emits the token twice, so the document entry has
length 2 and term frequency 2).  The stemmer parameter is instantiated with
the identity, which agrees with Porter2 on every word this scenario stems
(`foo`, `foobar`, `max` carry no Porter2 suffix). -/
def c2Index : FTSIndex :=
  FTSIndex.add id (FTSIndex.init [("text", 1)])
    ⟨fun n => if n = "text" then some "foobar" else none, none, none, none⟩

/-- The same index after one additional correlation
`correlateWord("foo", "foobar", 0.05)` — a positive closeness within
(0, 1], below the 0.1 default weight of unlisted matched terms. -/
def c2Index2 : FTSIndex :=
  FTSIndex.correlateWord id c2Index "foo" "foobar" (1/20)

/-- The query `foo`, which prefix-matches the indexed token `foobar`. -/
def c2Query : Query := ⟨["foo"], [], [], fun _ => true⟩

/-- A document with the token `$max` in both its `text` and its `title`
field (sigil tokens bypass the stemmer, so nothing below depends on the
stemmer parameter). -/
def c4Doc : DocInput :=
  ⟨fun n => if n = "text" then some "$max"
    else if n = "title" then some "$max" else none, none, none, none⟩

/-- A two-field index holding only `c4Doc`. -/
def c4Index : FTSIndex :=
  FTSIndex.add id (FTSIndex.init [("text", 1), ("title", 10)]) c4Doc

/-- The invariant carried through the token loop of one field: every
`(term, doc)` pair with recorded positions is in the term's `docs` list
and is either justified by `P` (it predates this field) or is the current
document; and every term counted by this field's `termFrequencies` lists
the current document in its `docs`. -/
def TokInv (P : String → Nat → Prop) (docID : Nat) (t : TokScan) : Prop :=
  (∀ tk te d ps, lookupKey t.terms tk = some te →
    lookupNat te.positions d = some ps →
    d ∈ te.docs ∧ (P tk d ∨ d = docID)) ∧
  (∀ tk n, lookupKey t.termFrequencies tk = some n →
    ∃ te, lookupKey t.terms tk = some te ∧ docID ∈ te.docs)

/-- The invariant carried through the field loop of `add`: every
`(term, doc)` pair with recorded positions is in the term's `docs` list,
and the pair either predates this `add` call (it has positions in the
pre-add term map `idxTerms`) or is the current document with a
`DocumentEntry` in one of the already-processed fields. -/
def ScanInv (idxTerms : List (String × TermEntry)) (docID : Nat)
    (a : AddScan) : Prop :=
  ∀ t te d ps, lookupKey a.terms t = some te →
    lookupNat te.positions d = some ps →
    d ∈ te.docs ∧
    ((∃ te0, lookupKey idxTerms t = some te0 ∧
        (lookupNat te0.positions d).isSome) ∨
      (d = docID ∧ ∃ f ∈ a.fieldsDone, (lookupNat f.documents docID).isSome))

/-- The per-index invariant (C4, amended): every `(term, doc)` pair with
recorded positions is in the term's `docs` list and has a `DocumentEntry`
in at least one field. -/
def IndexInv (idx : FTSIndex) : Prop :=
  ∀ t te d ps, lookupKey idx.terms t = some te →
    lookupNat te.positions d = some ps →
    d ∈ te.docs ∧ ∃ f ∈ idx.fields, (lookupNat f.documents d).isSome


/-- Pointwise order on weight maps: every key of the first map is present
in the second with a weight at least as large. -/
def mapLe (m m2 : List (String × ℚ)) : Prop :=
  ∀ k v, lookupKey m k = some v → ∃ v2, lookupKey m2 k = some v2 ∧ v ≤ v2

/-- All weights in the map are nonnegative (an invariant of
`collectCorrelations`: seeds are 1 and merging takes a `max` against a
`getD 0` default). -/
def mapNonneg (m : List (String × ℚ)) : Prop :=
  ∀ k v, lookupKey m k = some v → 0 ≤ v

/-! ## Theorems -/

/-- C9: for every argument vector with `termProbabilityInLanguage = 0` (the
case of a term that never appears in a field), `dirichletPlus` returns
exactly 0 — the guard fires before either division by
`mu * termProbabilityInLanguage` is evaluated, so the contribution is a
plain zero, never an undefined value. -/
theorem dirichletPlus_zero_probability (tfq tfd dl qlen : ℝ) :
    dirichletPlus tfq tfd 0 dl qlen = 0 := by
  simp [dirichletPlus]

/-- C8: `tokenize` (TypeScript generation) rewrites every component equal
to the bare `$` into `positional` then `operator`, keeps a `$`-prefixed
component of length over 1 verbatim, and on the two concrete inputs yields
`tokenize("$ operator") = ["positional","operator","operator"]` and
`tokenize("$max operator") = ["$max","operator"]`. -/
theorem tokenize_sigil_rules :
    (∀ rest, Stemmer.tokLoop false ("$" :: rest) =
      "positional" :: "operator" :: Stemmer.tokLoop false rest) ∧
    (∀ tok rest, startsWithChar tok '$' = true → 1 < tok.length →
      Stemmer.tokLoop false (tok :: rest) = tok :: Stemmer.tokLoop false rest) ∧
    Stemmer.tokenize "$ operator" false = ["positional", "operator", "operator"] ∧
    Stemmer.tokenize "$max operator" false = ["$max", "operator"] := by
  refine ⟨?_, ?_, by decide, by decide⟩
  · intro rest
    cases rest <;> simp [Stemmer.tokLoop]
  · intro tok rest hd hlen
    have hne : tok ≠ "$" := by
      intro h
      rw [h] at hlen
      exact absurd hlen (by decide)
    have hatomic : Stemmer.atomicPhraseMap tok = none := by
      unfold Stemmer.atomicPhraseMap
      have h1 : tok ≠ "ops" := by rintro rfl; exact absurd hd (by decide)
      have h2 : tok ≠ "cloud" := by rintro rfl; exact absurd hd (by decide)
      have h3 : tok ≠ "real" := by rintro rfl; exact absurd hd (by decide)
      simp [h1, h2, h3]
    have hemit : Stemmer.emitComponent false tok = [tok] := by
      simp [Stemmer.emitComponent, hlen]
    cases rest with
    | nil => simp [Stemmer.tokLoop, hne, hemit]
    | cons next rest2 => simp [Stemmer.tokLoop, hne, hatomic, hemit]

/-- C8 witness: the verbatim rule applied at `$max` before `operator`. -/
theorem tokenize_sigil_rules_witness :
    startsWithChar "$max" '$' = true ∧ 1 < "$max".length ∧
    Stemmer.tokLoop false ["$max", "operator"] =
      "$max" :: Stemmer.tokLoop false ["operator"] :=
  ⟨by decide, by decide,
    tokenize_sigil_rules.2.1 "$max" ["operator"] (by decide) (by decide)⟩

/-- C5: `MANDATORY = {realm, atlas, compass}` is declared, but no query
rewriting consumes it: parsing the bare mandatory term `atlas` (for any
stemmer) produces `terms = {"atlas"}` and leaves `stemmedPhrases` (and
`phrases`) empty, so the phrase filter never requires the term. -/
theorem mandatory_term_not_phrase (stem : String → String) :
    "atlas" ∈ MANDATORY ∧ "realm" ∈ MANDATORY ∧ "compass" ∈ MANDATORY ∧
    (Query.parseBare stem "atlas").stemmedPhrases = [] ∧
    (Query.parseBare stem "atlas").phrases = [] ∧
    (Query.parseBare stem "atlas").terms = ["atlas"] :=
  ⟨by decide, by decide, by decide, rfl, rfl, rfl⟩

theorem foldl_add_relevancy (ms : List Match) (a : ℝ) :
    ms.foldl (fun acc m => acc + m.relevancyScore) a =
      a + (ms.map Match.relevancyScore).sum := by
  induction ms generalizing a with
  | nil => simp
  | cons x xs ih => simp [ih]; ring

theorem foldl_add_sqdev (ms : List Match) (c : ℝ) (a : ℝ) :
    ms.foldl (fun acc m => acc + (m.relevancyScore - c) ^ 2) a =
      a + (ms.map (fun m => (m.relevancyScore - c) ^ 2)).sum := by
  induction ms generalizing a with
  | nil => simp
  | cons x xs ih => simp [ih]; ring

/-- C3 amended: the relevancy threshold of the HITS branch is the
*sample* standard deviation (Bessel divisor `n - 1`, from
`Math.sqrt(1 / (matches.length - 1) * sum)`) of the surviving candidates'
relevancy scores, not the population standard deviation. -/
theorem hits_threshold_is_sample_stddev (ms : List Match) :
    hitsRelevancyThreshold ms =
      sampleStdDev ((hitsSurvivors ms).map Match.relevancyScore) := by
  unfold hitsRelevancyThreshold computeRelevancyThreshold sampleStdDev
  simp only [foldl_add_relevancy, foldl_add_sqdev, zero_add, List.map_map,
    List.length_map]
  congr 1
  simp only [Function.comp_def]
  ring

/-- C3 counterexample: two surviving candidates with relevancy scores 1
and 3.  The code's threshold is `√(1/(2-1) · ((1-2)² + (3-2)²)) = √2`,
while the population standard deviation of `[1, 3]` is
`√(((1-2)² + (3-2)²)/2) = 1`, and `√2 ≠ 1`. -/
theorem hits_threshold_counterexample :
    hitsRelevancyThreshold
        [⟨0, 1, [], 0, 1, 1, [], []⟩, ⟨1, 3, [], 0, 1, 1, [], []⟩] ≠
      popStdDev
        ((hitsSurvivors
            [⟨0, 1, [], 0, 1, 1, [], []⟩, ⟨1, 3, [], 0, 1, 1, [], []⟩]).map
          Match.relevancyScore) := by
  have hs : hitsSurvivors
      [(⟨0, 1, [], 0, 1, 1, [], []⟩ : Match), ⟨1, 3, [], 0, 1, 1, [], []⟩] =
      [⟨0, 1, [], 0, 1, 1, [], []⟩, ⟨1, 3, [], 0, 1, 1, [], []⟩] := by
    unfold hitsSurvivors
    rw [List.filter_cons_of_pos, List.filter_cons_of_pos] <;>
      simp only [List.filter_nil, decide_eq_true_eq] <;> norm_num
  rw [hitsRelevancyThreshold, hs]
  have h1 : computeRelevancyThreshold
      [(⟨0, 1, [], 0, 1, 1, [], []⟩ : Match), ⟨1, 3, [], 0, 1, 1, [], []⟩] =
      Real.sqrt 2 := by
    unfold computeRelevancyThreshold
    norm_num
  have h2 : popStdDev
      ([(⟨0, 1, [], 0, 1, 1, [], []⟩ : Match), ⟨1, 3, [], 0, 1, 1, [], []⟩].map
        Match.relevancyScore) = 1 := by
    unfold popStdDev
    simp only [List.map_cons, List.map_nil, List.sum_cons, List.sum_nil,
      List.length_cons, List.length_nil]
    norm_num
  rw [h1, h2]
  intro h
  have := Real.sq_sqrt (by norm_num : (2 : ℝ) ≥ 0)
  rw [h] at this
  norm_num at this

theorem pushNew_not_mem {α : Type} [DecidableEq α] {l : List α} {a b : α}
    (hb : b ∉ l) (hab : b ≠ a) : b ∉ pushNew l a := by
  unfold pushNew
  split
  · exact hb
  · simp [hb, hab]

theorem neighborFold_no_zero (urlToId : List (String × Nat))
    (urls : List String) (s : List Nat) (hs : 0 ∉ s) :
    0 ∉ urls.foldl (fun s u =>
      match lookupKey urlToId u with
      | none => s
      | some nid => if nid ≠ 0 then pushNew s nid else s) s := by
  induction urls generalizing s with
  | nil => exact hs
  | cons u rest ih =>
    simp only [List.foldl_cons]
    apply ih
    cases h : lookupKey urlToId u with
    | none => exact hs
    | some nid =>
      by_cases hz : nid = 0
      · simp [hz, hs]
      · simp only [hz, ne_eq, not_false_eq_true, if_true]
        exact pushNew_not_mem hs (Ne.symm hz)

theorem lookupNat_append {α : Type} (l : List (Nat × α)) (k j : Nat) (v : α) :
    lookupNat (l ++ [(k, v)]) j =
      match lookupNat l j with
      | some x => some x
      | none => if k = j then some v else none := by
  induction l with
  | nil => simp [lookupNat]
  | cons e rest ih =>
    by_cases h : e.1 = j <;> simp [lookupNat, h, ih]

theorem expandBaseSet_lookup_preserved (bs : List (Nat × Match))
    (nbrs : List Nat) (j : Nat) (hj : j ∉ nbrs) :
    lookupNat (expandBaseSet bs nbrs) j = lookupNat bs j := by
  unfold expandBaseSet
  induction nbrs generalizing bs with
  | nil => rfl
  | cons n rest ih =>
    simp only [List.foldl_cons]
    have hjr : j ∉ rest := fun h => hj (List.mem_cons_of_mem _ h)
    have hjn : n ≠ j := fun h => hj (h ▸ List.mem_cons_self n rest)
    cases h : lookupNat bs n with
    | some m => simpa [h] using ih bs hjr
    | none =>
      have := ih (bs ++ [(n, Match.mkNew n 0 [])]) hjr
      simp only [h] at *
      rw [this, lookupNat_append]
      simp only [hjn, if_false]
      cases lookupNat bs j <;> rfl

/-- C10: `getNeighbors` admits a neighbor id with `if (ancestorID)` /
`if (descendentID)`, a truthiness test that rejects the id 0, so document 0
(the first document of a generation) never enters a match's incoming or
outgoing neighbor list — whatever the link graph records — and neighbor
expansion never installs a placeholder `Match` for it in the base set:
after expansion the base set maps 0 exactly as before. -/
theorem neighbor_ids_never_zero (idx : FTSIndex) (docId : Nat)
    (baseSet : List (Nat × Match)) :
    0 ∉ idx.incomingNeighborIds docId ∧
    0 ∉ idx.outgoingNeighborIds docId ∧
    lookupNat (expandBaseSet baseSet
        (idx.incomingNeighborIds docId ++ idx.outgoingNeighborIds docId)) 0 =
      lookupNat baseSet 0 := by
  have hin : 0 ∉ idx.incomingNeighborIds docId := by
    unfold FTSIndex.incomingNeighborIds
    exact neighborFold_no_zero _ _ _ (by simp)
  have hout : 0 ∉ idx.outgoingNeighborIds docId := by
    unfold FTSIndex.outgoingNeighborIds
    exact neighborFold_no_zero _ _ _ (by simp)
  refine ⟨hin, hout, ?_⟩
  apply expandBaseSet_lookup_preserved
  simp [hin, hout]

theorem getAux_none_iff (l : List (Nat × Bool)) (i : Nat)
    (acc : Option (Nat × Nat)) :
    Pool.getAux l i acc = none ↔ acc = none ∧ ∀ e ∈ l, e.2 = true := by
  induction l generalizing i acc with
  | nil => simp [Pool.getAux]
  | cons e rest ih =>
    by_cases he : e.2 = true
    · simp [Pool.getAux, he, ih]
    · have he2 : e.2 = false := by simpa using he
      cases acc with
      | none => simp [Pool.getAux, he2, ih]
      | some m =>
        by_cases hlt : e.1 < m.2 <;> simp [Pool.getAux, he2, hlt, ih]

theorem getAux_min (l : List (Nat × Bool)) (i : Nat)
    (acc : Option (Nat × Nat)) (j b : Nat)
    (h : Pool.getAux l i acc = some (j, b)) :
    (∀ e ∈ l, e.2 = false → b ≤ e.1) ∧ (∀ m, acc = some m → b ≤ m.2) := by
  induction l generalizing i acc with
  | nil =>
    simp only [Pool.getAux] at h
    refine ⟨by simp, fun m hm => ?_⟩
    rw [hm] at h
    injection h with h2
    simp [h2]
  | cons e rest ih =>
    by_cases he : e.2 = true
    · simp only [Pool.getAux, he, if_true] at h
      obtain ⟨h1, h2⟩ := ih _ _ h
      exact ⟨fun x hx hxf => by
        rcases List.mem_cons.mp hx with rfl | hx2
        · rw [hxf] at he; cases he
        · exact h1 x hx2 hxf, h2⟩
    · have he2 : e.2 = false := by simpa using he
      cases acc with
      | none =>
        simp only [Pool.getAux, he2, Bool.false_eq_true, if_false] at h
        obtain ⟨h1, h2⟩ := ih _ _ h
        have hbe : b ≤ e.1 := h2 (i, e.1) rfl
        refine ⟨fun x hx hxf => ?_, fun m hm => by cases hm⟩
        rcases List.mem_cons.mp hx with rfl | hx2
        · exact hbe
        · exact h1 x hx2 hxf
      | some m =>
        by_cases hlt : e.1 < m.2
        · simp only [Pool.getAux, he2, Bool.false_eq_true, if_false, hlt,
            if_true] at h
          obtain ⟨h1, h2⟩ := ih _ _ h
          have hbe : b ≤ e.1 := h2 (i, e.1) rfl
          refine ⟨fun x hx hxf => ?_, fun m2 hm2 => ?_⟩
          · rcases List.mem_cons.mp hx with rfl | hx2
            · exact hbe
            · exact h1 x hx2 hxf
          · cases hm2; omega
        · simp only [Pool.getAux, he2, Bool.false_eq_true, if_false, hlt,
            if_false] at h
          obtain ⟨h1, h2⟩ := ih _ _ h
          have hbm : b ≤ m.2 := h2 m rfl
          refine ⟨fun x hx hxf => ?_, fun m2 hm2 => ?_⟩
          · rcases List.mem_cons.mp hx with rfl | hx2
            · omega
            · exact h1 x hx2 hxf
          · cases hm2; exact hbm

theorem getAux_mem (l : List (Nat × Bool)) (i : Nat)
    (acc : Option (Nat × Nat)) (j b : Nat)
    (h : Pool.getAux l i acc = some (j, b)) :
    acc = some (j, b) ∨
      ∃ k, ∃ hk : k < l.length, j = i + k ∧ l.get ⟨k, hk⟩ = (b, false) := by
  induction l generalizing i acc with
  | nil => simp [Pool.getAux] at h; simp [h]
  | cons e rest ih =>
    obtain ⟨e1, e2⟩ := e
    by_cases he : e2 = true
    · simp only [Pool.getAux, he, if_true] at h
      rcases ih _ _ h with h1 | ⟨k, hk, hjk, hget⟩
      · exact Or.inl h1
      · exact Or.inr ⟨k + 1, by simpa using hk, by omega, by simpa using hget⟩
    · have he2 : e2 = false := by simpa using he
      subst he2
      have step : ∀ acc2 : Nat × Nat,
          Pool.getAux rest (i + 1) (some acc2) = some (j, b) →
          (acc2 = (j, b)) ∨
          ∃ k, ∃ hk : k < rest.length, j = i + 1 + k ∧
            rest.get ⟨k, hk⟩ = (b, false) := by
        intro acc2 h2
        rcases ih _ _ h2 with h1 | ⟨k, hk, hjk, hget⟩
        · exact Or.inl (by injection h1)
        · exact Or.inr ⟨k, hk, hjk, hget⟩
      cases acc with
      | none =>
        simp only [Pool.getAux, Bool.false_eq_true, if_false] at h
        rcases step _ h with h1 | ⟨k, hk, hjk, hget⟩
        · refine Or.inr ⟨0, by simp, ?_, ?_⟩
          · injection h1 with h1a h1b; omega
          · injection h1 with h1a h1b
            simp [h1b]
        · exact Or.inr ⟨k + 1, by simpa using hk, by omega, by simpa using hget⟩
      | some m =>
        by_cases hlt : e1 < m.2
        · simp only [Pool.getAux, Bool.false_eq_true, if_false, hlt,
            if_true] at h
          rcases step _ h with h1 | ⟨k, hk, hjk, hget⟩
          · refine Or.inr ⟨0, by simp, ?_, ?_⟩
            · injection h1 with h1a h1b; omega
            · injection h1 with h1a h1b
              simp [h1b]
          · exact Or.inr ⟨k + 1, by simpa using hk, by omega, by simpa using hget⟩
        · simp only [Pool.getAux, Bool.false_eq_true, if_false, hlt,
            if_false] at h
          rcases step _ h with h1 | ⟨k, hk, hjk, hget⟩
          · exact Or.inl (by rw [h1])
          · exact Or.inr ⟨k + 1, by simpa using hk, by omega, by simpa using hget⟩

theorem getAux_strict (l : List (Nat × Bool)) (i : Nat) (m : Nat × Nat)
    (j b : Nat) (h : Pool.getAux l i (some m) = some (j, b)) :
    (j, b) = m ∨ b < m.2 := by
  induction l generalizing i m with
  | nil => simp [Pool.getAux] at h; simp [h]
  | cons e rest ih =>
    by_cases he : e.2 = true
    · simp only [Pool.getAux, he, if_true] at h
      exact ih _ _ h
    · have he2 : e.2 = false := by simpa using he
      by_cases hlt : e.1 < m.2
      · simp only [Pool.getAux, he2, Bool.false_eq_true, if_false, hlt,
          if_true] at h
        rcases ih _ _ h with h1 | h1
        · right; injection h1 with h1a h1b; omega
        · right; omega
      · simp only [Pool.getAux, he2, Bool.false_eq_true, if_false, hlt,
          if_false] at h
        exact ih _ _ h

theorem getAux_first (l : List (Nat × Bool)) (i : Nat)
    (acc : Option (Nat × Nat)) (j b : Nat)
    (hacc : ∀ m : Nat × Nat, acc = some m → m.1 < i)
    (h : Pool.getAux l i acc = some (j, b)) :
    ∀ k, ∀ hk : k < l.length, i + k < j → (l.get ⟨k, hk⟩).2 = false →
      b < (l.get ⟨k, hk⟩).1 := by
  induction l generalizing i acc with
  | nil => intro k hk; simp at hk
  | cons e rest ih =>
    obtain ⟨e1, e2⟩ := e
    intro k hk hkj hkf
    by_cases he : e2 = true
    · simp only [Pool.getAux, he, if_true] at h
      cases k with
      | zero => simp at hkf; rw [hkf] at he; cases he
      | succ k2 =>
        have := ih (i + 1) acc (fun m hm => by have := hacc m hm; omega) h
          k2 (by simpa using hk) (by omega)
        simpa using this (by simpa using hkf)
    · have he2 : e2 = false := by simpa using he
      subst he2
      have hnext : ∀ acc2 : Nat × Nat,
          Pool.getAux rest (i + 1) (some acc2) = some (j, b) →
          i < j → b < acc2.2 ∨ j ≤ acc2.1 := by
        intro acc2 h2 hij
        rcases getAux_strict rest (i + 1) acc2 j b h2 with h1 | h1
        · exact Or.inr (by rw [← h1])
        · exact Or.inl h1
      cases acc with
      | none =>
        simp only [Pool.getAux, Bool.false_eq_true, if_false] at h
        cases k with
        | zero =>
          have hij : i < j := by omega
          rcases hnext (i, e1) h hij with h1 | h1
          · simpa using h1
          · simp only at h1; omega
        | succ k2 =>
          have := ih (i + 1) (some (i, e1)) (fun m hm => by cases hm; omega) h
            k2 (by simpa using hk) (by omega)
          simpa using this (by simpa using hkf)
      | some m =>
        have hmi : m.1 < i := hacc m rfl
        by_cases hlt : e1 < m.2
        · simp only [Pool.getAux, Bool.false_eq_true, if_false, hlt,
            if_true] at h
          cases k with
          | zero =>
            have hij : i < j := by omega
            rcases hnext (i, e1) h hij with h1 | h1
            · simpa using h1
            · simp only at h1; omega
          | succ k2 =>
            have := ih (i + 1) (some (i, e1)) (fun m2 hm2 => by cases hm2; omega)
              h k2 (by simpa using hk) (by omega)
            simpa using this (by simpa using hkf)
        · simp only [Pool.getAux, Bool.false_eq_true, if_false, hlt,
            if_false] at h
          cases k with
          | zero =>
            have hij : i < j := by omega
            rcases hnext m h hij with h1 | h1
            · simp only [List.get]
              omega
            · omega
          | succ k2 =>
            have := ih (i + 1) (some m) (fun m2 hm2 => by cases hm2; omega) h
              k2 (by simpa using hk) (by omega)
            simpa using this (by simpa using hkf)

/-- C6: `Pool.get()` (the TypeScript pool) fails with `pool-unavailable`
exactly when every pool element is suspended; otherwise it returns an
unsuspended element whose backlog is minimal among unsuspended elements,
and any earlier (inserted-before) unsuspended element has a strictly larger
backlog, so ties go to the earliest.  `get` only reads the pool — it is a
pure function of the pool state here, so the state is unchanged. -/
theorem pool_get_spec (pool : List (Nat × Bool)) :
    (Pool.get pool = Except.error "pool-unavailable" ↔
      ∀ e ∈ pool, e.2 = true) ∧
    (∀ j b, Pool.get pool = Except.ok (j, b) →
      (∃ hj : j < pool.length, pool.get ⟨j, hj⟩ = (b, false)) ∧
      (∀ e ∈ pool, e.2 = false → b ≤ e.1) ∧
      (∀ k, ∀ hk : k < pool.length, k < j → (pool.get ⟨k, hk⟩).2 = false →
        b < (pool.get ⟨k, hk⟩).1)) := by
  constructor
  · unfold Pool.get
    cases h : Pool.getAux pool 0 none with
    | none =>
      simp only [reduceCtorEq, true_iff]
      exact ((getAux_none_iff pool 0 none).mp h).2
    | some m =>
      simp only [reduceCtorEq, false_iff]
      intro hall
      rw [(getAux_none_iff pool 0 none).mpr ⟨rfl, hall⟩] at h
      cases h
  · intro j b hok
    have h : Pool.getAux pool 0 none = some (j, b) := by
      unfold Pool.get at hok
      cases h2 : Pool.getAux pool 0 none with
      | none => rw [h2] at hok; cases hok
      | some m => rw [h2] at hok; injection hok with hm; rw [← hm]
    refine ⟨?_, (getAux_min pool 0 none j b h).1, ?_⟩
    · rcases getAux_mem pool 0 none j b h with h1 | ⟨k, hk, hjk, hget⟩
      · cases h1
      · exact ⟨by omega, by rw [show (⟨j, by omega⟩ : Fin pool.length) =
          ⟨k, hk⟩ by simp [hjk]] ; exact hget⟩
    · intro k hk hkj hkf
      exact getAux_first pool 0 none j b (fun m hm => by cases hm) h k hk
        (by omega) hkf

/-- C6 witness: the pool `[(4, unsuspended), (2, suspended), (3,
unsuspended), (3, unsuspended)]` yields element 2 with backlog 3 (the
suspended smaller backlog is skipped, the later equal backlog loses the
tie), and the all-suspended pool fails with `pool-unavailable`. -/
theorem pool_get_spec_witness :
    (Pool.get [(4, true), (2, true)] = Except.error "pool-unavailable") ∧
    ((∃ hj : 2 < [(4, false), (2, true), (3, false), (3, false)].length,
        [(4, false), (2, true), (3, false), (3, false)].get ⟨2, hj⟩ = (3, false)) ∧
      (∀ e ∈ [(4, false), (2, true), (3, false), (3, false)], e.2 = false →
        3 ≤ e.1) ∧
      (∀ k, ∀ hk : k < [(4, false), (2, true), (3, false), (3, false)].length,
        k < 2 → ([(4, false), (2, true), (3, false), (3, false)].get ⟨k, hk⟩).2 = false →
        3 < ([(4, false), (2, true), (3, false), (3, false)].get ⟨k, hk⟩).1)) :=
  ⟨((pool_get_spec [(4, true), (2, true)]).1).mpr (by decide),
    (pool_get_spec [(4, false), (2, true), (3, false), (3, false)]).2 2 3 rfl⟩

/-- C1 (defect in the JS `Query.js` consumed by `fts.js`): the phrase
post-filter of `FTSIndex.search` keeps a match as soon as the FIRST
stemmed phrase has a contiguous position choice, never examining the rest.
Document 7 (positions: quoth 0, raven 1, crow 10) survives the filter for
the query phrases `["quoth raven", "raven crow"]` even though
`raven crow` admits no contiguous choice — the every-phrase check (the
`checkPhrases` of the TypeScript `Query.ts`, which the claim describes)
rejects it on the same tokens map. -/
theorem phrase_filter_checks_only_first_phrase :
    buildPhraseTokens phraseIdxTerms 7 phraseMatch7.terms =
      some [("quoth", [0]), ("raven", [1]), ("crow", [10])] ∧
    phraseSurvives phraseIdxTerms phraseQuery phraseMatch7 = true ∧
    rootSetPhraseFilter phraseIdxTerms phraseQuery [phraseMatch7] =
      [phraseMatch7] ∧
    Query.checkPhrases phraseQuery
      [("quoth", [0]), ("raven", [1]), ("crow", [10])] = false ∧
    haveContiguousKeywords ["raven", "crow"]
      [("quoth", [0]), ("raven", [1]), ("crow", [10])] = false := by
  refine ⟨by decide, by decide, ?_, by decide, by decide⟩
  have h : phraseSurvives phraseIdxTerms phraseQuery phraseMatch7 = true := by
    decide
  simp only [phraseQuery] at h
  simp [rootSetPhraseFilter, phraseQuery, List.filter, h]

theorem lookupKey_setKey_self {α : Type} (m : List (String × α)) (k : String)
    (v : α) : lookupKey (setKey m k v) k = some v := by
  induction m with
  | nil => simp [setKey, lookupKey]
  | cons e rest ih =>
    by_cases h : e.1 = k <;> simp [setKey, lookupKey, h, ih]

theorem lookupKey_setKey_ne {α : Type} (m : List (String × α)) (k k2 : String)
    (v : α) (h : k ≠ k2) : lookupKey (setKey m k v) k2 = lookupKey m k2 := by
  induction m with
  | nil => simp [setKey, lookupKey, h]
  | cons e rest ih =>
    by_cases h2 : e.1 = k <;> simp [setKey, lookupKey, h2, h, ih]

theorem mapLe_refl (m : List (String × ℚ)) : mapLe m m :=
  fun k v hv => ⟨v, hv, le_refl v⟩

theorem mapLe_trans {m1 m2 m3 : List (String × ℚ)} (h1 : mapLe m1 m2)
    (h2 : mapLe m2 m3) : mapLe m1 m3 := by
  intro k v hv
  obtain ⟨v2, hv2, hle⟩ := h1 k v hv
  obtain ⟨v3, hv3, hle2⟩ := h2 k v2 hv2
  exact ⟨v3, hv3, le_trans hle hle2⟩

theorem applyCorrEntry_nonneg {m : List (String × ℚ)} (hm : mapNonneg m)
    (e : String × ℚ) : mapNonneg (applyCorrEntry m e) := by
  intro k v hv
  unfold applyCorrEntry at hv
  by_cases hk : e.1 = k
  · rw [hk, lookupKey_setKey_self] at hv
    injection hv with hv
    rw [← hv]
    refine le_trans ?_ (le_max_left _ _)
    cases h2 : lookupKey m k with
    | none => simp
    | some v0 => simpa using hm k v0 h2
  · rw [lookupKey_setKey_ne _ _ _ _ hk] at hv
    exact hm k v hv

theorem mapLe_applyCorrEntry_self {m : List (String × ℚ)} (hm : mapNonneg m)
    (e : String × ℚ) : mapLe m (applyCorrEntry m e) := by
  intro k v hv
  unfold applyCorrEntry
  by_cases hk : e.1 = k
  · subst hk
    refine ⟨max ((lookupKey m e.1).getD 0) e.2, lookupKey_setKey_self _ _ _, ?_⟩
    rw [hv]
    simp
  · rw [lookupKey_setKey_ne _ _ _ _ hk]
    exact ⟨v, hv, le_refl v⟩

theorem mapLe_applyCorrEntry_mono {m m2 : List (String × ℚ)}
    (hle : mapLe m m2) (hm2 : mapNonneg m2) (e : String × ℚ) :
    mapLe (applyCorrEntry m e) (applyCorrEntry m2 e) := by
  intro k v hv
  unfold applyCorrEntry at hv ⊢
  by_cases hk : e.1 = k
  · subst hk
    rw [lookupKey_setKey_self] at hv
    injection hv with hv
    refine ⟨max ((lookupKey m2 e.1).getD 0) e.2, lookupKey_setKey_self _ _ _, ?_⟩
    rw [← hv]
    apply max_le_max _ (le_refl e.2)
    cases h1 : lookupKey m e.1 with
    | none =>
      simp only [Option.getD_none]
      cases h2 : lookupKey m2 e.1 with
      | none => simp
      | some v2 => simpa using hm2 e.1 v2 h2
    | some v1 =>
      obtain ⟨v2, hv2, hle12⟩ := hle e.1 v1 h1
      simpa [hv2] using hle12
  · rw [lookupKey_setKey_ne _ _ _ _ hk] at hv
    obtain ⟨v2, hv2, hle2⟩ := hle k v hv
    exact ⟨v2, by rw [lookupKey_setKey_ne _ _ _ _ hk]; exact hv2, hle2⟩

theorem corrFold_nonneg (L : List (String × ℚ)) {m : List (String × ℚ)}
    (hm : mapNonneg m) : mapNonneg (L.foldl applyCorrEntry m) := by
  induction L generalizing m with
  | nil => exact hm
  | cons e rest ih => exact ih (applyCorrEntry_nonneg hm e)

theorem corrFold_mono (L : List (String × ℚ)) {m m2 : List (String × ℚ)}
    (hle : mapLe m m2) (hm2 : mapNonneg m2) :
    mapLe (L.foldl applyCorrEntry m) (L.foldl applyCorrEntry m2) := by
  induction L generalizing m m2 with
  | nil => exact hle
  | cons e rest ih =>
    exact ih (mapLe_applyCorrEntry_mono hle hm2 e) (applyCorrEntry_nonneg hm2 e)

theorem corrFold_extend (L : List (String × ℚ)) {m : List (String × ℚ)}
    (hm : mapNonneg m) : mapLe m (L.foldl applyCorrEntry m) := by
  induction L generalizing m with
  | nil => exact mapLe_refl m
  | cons e rest ih =>
    exact mapLe_trans (mapLe_applyCorrEntry_self hm e)
      (ih (applyCorrEntry_nonneg hm e))

/-- `correlateWord` extends at most one correlation list, by appending. -/
theorem corrAdd_lookup (stem : String → String)
    (wc : List (String × List (String × ℚ))) (word syn : String) (w : ℚ)
    (key : String) :
    lookupKey (corrAdd stem wc word syn w) key = lookupKey wc key ∨
    lookupKey (corrAdd stem wc word syn w) key =
      some ((lookupKey wc key).getD [] ++ [(stem syn, w)]) := by
  by_cases hk : joinSpace ((StemmerJS.tokenize word false).map stem) = key
  · right
    subst hk
    cases h : lookupKey wc (joinSpace ((StemmerJS.tokenize word false).map stem)) with
    | none =>
      simp only [corrAdd, h, Option.getD_none, List.nil_append]
      exact lookupKey_setKey_self _ _ _
    | some L =>
      simp only [corrAdd, h, Option.getD_some]
      exact lookupKey_setKey_self _ _ _
  · left
    cases h : lookupKey wc (joinSpace ((StemmerJS.tokenize word false).map stem)) <;>
      simp only [corrAdd, h] <;> exact lookupKey_setKey_ne _ _ _ _ hk

theorem applyCorrKey_nonneg (wc : List (String × List (String × ℚ)))
    {m : List (String × ℚ)} (hm : mapNonneg m) (key : String) :
    mapNonneg (applyCorrKey wc m key) := by
  unfold applyCorrKey
  cases lookupKey wc key with
  | none => exact hm
  | some L => exact corrFold_nonneg L hm

theorem applyCorrKey_mono (stem : String → String)
    (wc : List (String × List (String × ℚ))) (word syn : String) (w : ℚ)
    {m m2 : List (String × ℚ)} (hle : mapLe m m2) (hm2 : mapNonneg m2)
    (key : String) :
    mapLe (applyCorrKey wc m key)
      (applyCorrKey (corrAdd stem wc word syn w) m2 key) := by
  unfold applyCorrKey
  rcases corrAdd_lookup stem wc word syn w key with h | h <;> rw [h]
  · cases lookupKey wc key with
    | none => exact hle
    | some L => exact corrFold_mono L hle hm2
  · cases hwc : lookupKey wc key with
    | none =>
      simp only [hwc, Option.getD_none, List.nil_append]
      refine mapLe_trans hle (corrFold_extend _ hm2)
    | some L =>
      simp only [hwc, Option.getD_some]
      rw [List.foldl_append]
      refine mapLe_trans (corrFold_mono L hle hm2) (corrFold_extend _ ?_)
      exact corrFold_nonneg L hm2

theorem ccLoop_mono (stem : String → String)
    (wc : List (String × List (String × ℚ))) (word syn : String) (w : ℚ)
    (ts : List String) :
    ∀ {m m2 : List (String × ℚ)}, mapLe m m2 → mapNonneg m2 →
    mapLe (ccLoop stem wc ts m)
      (ccLoop stem (corrAdd stem wc word syn w) ts m2) := by
  induction ts with
  | nil => intro m m2 hle _; exact hle
  | cons t rest ih =>
    intro m m2 hle hm2
    cases rest with
    | nil =>
      exact applyCorrKey_mono stem wc word syn w hle hm2 (stem t)
    | cons t2 rest2 =>
      simp only [ccLoop]
      apply ih
      · apply applyCorrKey_mono stem wc word syn w
        · exact applyCorrKey_mono stem wc word syn w hle hm2 (stem t)
        · exact applyCorrKey_nonneg _ hm2 (stem t)
      · apply applyCorrKey_nonneg
        apply applyCorrKey_nonneg
        exact hm2

theorem seed_nonneg (stem : String → String) (terms : List String) :
    mapNonneg (terms.foldl (fun m t => setKey m (stem t) 1) []) := by
  have general : ∀ (ts : List String) (m : List (String × ℚ)), mapNonneg m →
      mapNonneg (ts.foldl (fun m t => setKey m (stem t) 1) m) := by
    intro ts
    induction ts with
    | nil => intro m hm; exact hm
    | cons t rest ih =>
      intro m hm
      apply ih
      intro k v hv
      have hv2 : lookupKey (setKey m (stem t) 1) k = some v := hv
      by_cases hk : stem t = k
      · rw [hk, lookupKey_setKey_self] at hv2
        injection hv2 with hv2
        rw [← hv2]; norm_num
      · rw [lookupKey_setKey_ne _ _ _ _ hk] at hv2
        exact hm k v hv2
  exact general terms [] (fun k v hv => by cases hv)

/-- C2 amended: registering one more correlation (`correlateWord`, any
positive closeness in (0, 1]) never decreases any term's weight in the
stemmed-term map `collectCorrelations` builds for a query, and never
removes a key.  (The match's final `relevancyScore` can still decrease —
see the counterexample — because a synonym key whose weight is below the
0.1 fallback replaces that fallback, and its trie hits re-add the
Dirichlet+ length penalty.) -/
theorem collectCorrelations_weight_monotone (stem : String → String)
    (idx : FTSIndex) (word syn : String) (w : ℚ) (hw : 0 < w ∧ w ≤ 1)
    (terms : List String) (k : String) (v : ℚ)
    (hk : lookupKey (FTSIndex.collectCorrelations stem idx terms) k = some v) :
    ∃ v2, lookupKey (FTSIndex.collectCorrelations stem
        (FTSIndex.correlateWord stem idx word syn w) terms) k = some v2 ∧
      v ≤ v2 := by
  unfold FTSIndex.collectCorrelations at hk ⊢
  unfold FTSIndex.correlateWord
  exact ccLoop_mono stem idx.wordCorrelations word syn w terms
    (mapLe_refl _) (seed_nonneg stem terms) k v hk

/-- C2 amended witness: the query `foo` against `c2Index` (no
correlations) keeps its seed weight 1 after `correlateWord("foo",
"foobar", 0.05)`. -/
theorem collectCorrelations_weight_monotone_witness :
    (0 < (1/20 : ℚ) ∧ (1/20 : ℚ) ≤ 1) ∧
    lookupKey (FTSIndex.collectCorrelations id c2Index ["foo"]) "foo" =
      some 1 ∧
    ∃ v2, lookupKey (FTSIndex.collectCorrelations id
        (FTSIndex.correlateWord id c2Index "foo" "foobar" (1/20)) ["foo"])
        "foo" = some v2 ∧ 1 ≤ v2 :=
  ⟨⟨by norm_num, by norm_num⟩, by decide,
    collectCorrelations_weight_monotone id c2Index "foo" "foobar" (1/20)
      ⟨by norm_num, by norm_num⟩ ["foo"] "foo" 1 (by decide)⟩

/-- C2 counterexample: adding the correlation `correlateWord("foo",
"foobar", 0.05)` — closeness 0.05 ∈ (0, 1] — strictly DECREASES document
0's relevancy score for the query `foo` on `c2Index`.  Before, the
prefix-matched term `foobar` scores with the 0.1 fallback weight; after,
it carries the explicit weight 0.05 and is also searched as its own key,
so the same document/term pair is scored twice
(`2·(0.05·T₂ + T₃) < 0.1·T₂ + T₃` exactly because the Dirichlet+ length
penalty `T₃ = log₂(1000/1001)` is negative). -/
theorem correlation_can_decrease_relevancy :
    relevancyOf (FTSIndex.searchMatchSet id c2Index2 c2Query) 0 <
      relevancyOf (FTSIndex.searchMatchSet id c2Index c2Query) 0 := by
  have hst1 : searchStemmedTerms id c2Index c2Query = [("foo", 1)] := by decide
  have hst2 : searchStemmedTerms id c2Index2 c2Query =
      [("foo", 1), ("foobar", max (max 0 (1/20)) (1/20))] := rfl
  have hmax : max (max (0:ℚ) (1/20)) (1/20) = 1/20 := by norm_num
  rw [hmax] at hst2
  have htup1 : c2Index.collectMatchesFromTrie ([("foo", (1:ℚ))].map Prod.fst) =
      [(0, ["foobar"])] := by decide
  have htup2 : c2Index2.collectMatchesFromTrie
      ([("foo", (1:ℚ)), ("foobar", 1/20)].map Prod.fst) =
      [(0, ["foobar"]), (0, ["foobar"])] := by decide
  have hA : termRelevancy c2Index2 [("foo", (1:ℚ)), ("foobar", 1/20)] 1 0 "foobar" =
      (1/20 : ℝ) * (Real.logb 2 (3/2) + Real.logb 2 (81/80)) +
        Real.logb 2 (1000/1001) := by
    have hf : c2Index2.fields =
        [⟨"text", [(0, ⟨2, [("foobar", 2)]⟩)], 1, 2⟩] := by decide
    have hte : (lookupKey c2Index2.terms "foobar").getD TermEntry.empty =
        ⟨[0], [(0, [1, 2])], [("text", 1)]⟩ := by decide
    simp only [termRelevancy, hf, hte, List.foldl_cons, List.foldl_nil,
      termFieldScore]
    norm_num [lookupNat, lookupKey, FTSIndex.init, Field.lengthWeight,
      (show (("foo" : String) = "foobar") ↔ False by decide)]
    simp only [dirichletPlus]
    norm_num
  have hB : termRelevancy c2Index [("foo", (1:ℚ))] 1 0 "foobar" =
      (1/10 : ℝ) * (Real.logb 2 (3/2) + Real.logb 2 (81/80)) +
        Real.logb 2 (1000/1001) := by
    have hf : c2Index.fields =
        [⟨"text", [(0, ⟨2, [("foobar", 2)]⟩)], 1, 2⟩] := by decide
    have hte : (lookupKey c2Index.terms "foobar").getD TermEntry.empty =
        ⟨[0], [(0, [1, 2])], [("text", 1)]⟩ := by decide
    simp only [termRelevancy, hf, hte, List.foldl_cons, List.foldl_nil,
      termFieldScore]
    norm_num [lookupNat, lookupKey, FTSIndex.init, Field.lengthWeight,
      (show (("foo" : String) = "foobar") ↔ False by decide)]
    simp only [dirichletPlus]
    norm_num
  have hT3 : Real.logb 2 (1000/1001) < 0 :=
    Real.logb_neg (by norm_num) (by norm_num) (by norm_num)
  simp only [FTSIndex.searchMatchSet, hst1, hst2, htup1, htup2]
  simp only [scoreTuple, c2Query, List.foldl_cons, List.foldl_nil, lookupNat,
    setNat, relevancyOf, Match.mkNew, pushNew, List.length_cons, List.length_nil,
    if_true, List.mem_singleton]
  norm_num
  rw [hA, hB]
  linarith [hT3]

/-- C4 counterexample: one document whose `text` and `title` fields both
contain the token `$max`.  `TermEntry.register` runs once per field (the
per-field `termFrequencies` map restarts the `count === 0` test), so the
document id 0 is pushed onto `TermEntry.docs` twice, not once, while a
positions entry for it exists.  (No component shown here depends on the
stemmer: sigil tokens bypass `stem`.) -/
theorem term_docs_registered_twice :
    lookupKey c4Index.terms "$max" =
      some ⟨[0, 0], [(0, [1, 2, 4, 5])], [("text", 1), ("title", 1)]⟩ ∧
    ((lookupKey c4Index.terms "$max").getD TermEntry.empty).docs.count 0 = 2 ∧
    (lookupNat ((lookupKey c4Index.terms "$max").getD
      TermEntry.empty).positions 0).isSome = true :=
  ⟨by decide, by decide, by decide⟩

theorem lookupNat_setNat_self {α : Type} (m : List (Nat × α)) (k : Nat)
    (v : α) : lookupNat (setNat m k v) k = some v := by
  induction m with
  | nil => simp [setNat, lookupNat]
  | cons e rest ih =>
    by_cases h : e.1 = k <;> simp [setNat, lookupNat, h, ih]

theorem lookupNat_setNat_ne {α : Type} (m : List (Nat × α)) (k k2 : Nat)
    (v : α) (h : k ≠ k2) : lookupNat (setNat m k v) k2 = lookupNat m k2 := by
  induction m with
  | nil => simp [setNat, lookupNat, h]
  | cons e rest ih =>
    by_cases h2 : e.1 = k <;> simp [setNat, lookupNat, h2, h, ih]

/-- The invariant step for the body of one (non-stop-word) token
iteration, stated over an arbitrary resulting token `tok`, trie and
correlation map (the invariant does not depend on them). -/
theorem tokenUpdate_inv (fname : String) (docID : Nat)
    (P : String → Nat → Prop) (t : TokScan) (tok : String)
    (trie2 : Trie.Node) (wc2 : List (String × List (String × ℚ)))
    (h : TokInv P docID t) :
    TokInv P docID
      { terms := setKey t.terms tok
          ((if (lookupKey t.termFrequencies tok).getD 0 = 0 then
              ((lookupKey t.terms tok).getD TermEntry.empty).register fname docID
            else
              ((lookupKey t.terms tok).getD TermEntry.empty)).addTokenPosition
            docID (t.termID + 1))
        trie := trie2
        termID := t.termID + 1
        wordCorrelations := wc2
        termFrequencies := setKey t.termFrequencies tok
          ((lookupKey t.termFrequencies tok).getD 0 + 1)
        numberOfTokens := t.numberOfTokens + 1 } := by
  obtain ⟨hA, hB⟩ := h
  set indexEntry := (lookupKey t.terms tok).getD TermEntry.empty with hie
  set count := (lookupKey t.termFrequencies tok).getD 0 with hcount
  set entry1 := if count = 0 then indexEntry.register fname docID
    else indexEntry with hentry1
  have hdocsID : docID ∈ entry1.docs := by
    rw [hentry1]
    by_cases hc : count = 0
    · simp [hc, TermEntry.register]
    · simp only [hc, if_false]
      have hcount2 : lookupKey t.termFrequencies tok = some count := by
        cases hl : lookupKey t.termFrequencies tok with
        | none => rw [hcount, hl] at hc; simp at hc
        | some n => rw [hcount, hl]; simp
      obtain ⟨te2, hte2, hmem⟩ := hB tok count hcount2
      rw [hie, hte2]
      simpa using hmem
  have hdocs_sub : ∀ d, d ∈ indexEntry.docs → d ∈ entry1.docs := by
    intro d hd
    rw [hentry1]
    by_cases hc : count = 0 <;> simp [hc, TermEntry.register, hd]
  have hpos1 : entry1.positions = indexEntry.positions := by
    rw [hentry1]
    by_cases hc : count = 0 <;> simp [hc, TermEntry.register]
  constructor
  · intro tk te d ps hte hps
    by_cases hk : tok = tk
    · subst hk
      rw [lookupKey_setKey_self] at hte
      injection hte with hte
      subst hte
      simp only [TermEntry.addTokenPosition] at hps ⊢
      have main : ∀ newpos : List (Nat × List Nat),
          (∀ d2, d2 ≠ docID → lookupNat newpos d2 = lookupNat entry1.positions d2) →
          lookupNat newpos d = some ps →
          (d ∈ entry1.docs ∧ (P tok d ∨ d = docID)) := by
        intro newpos hne hlook
        by_cases hd : d = docID
        · exact ⟨hd ▸ hdocsID, Or.inr hd⟩
        · have hps2 : lookupNat entry1.positions d = some ps := by
            rw [← hne d hd]; exact hlook
          rw [hpos1] at hps2
          cases hl : lookupKey t.terms tok with
          | none =>
            rw [hie, hl] at hps2
            simp [TermEntry.empty, lookupNat] at hps2
          | some te0 =>
            have he0 : indexEntry = te0 := by rw [hie, hl]; rfl
            rw [he0] at hps2
            obtain ⟨hmem, hjust⟩ := hA tok te0 d ps hl hps2
            refine ⟨hdocs_sub d (by rw [he0]; exact hmem), ?_⟩
            rcases hjust with h1 | h1
            · exact Or.inl h1
            · exact absurd h1 hd
      cases hl : lookupNat entry1.positions docID <;>
        simp only [hl] at hps ⊢ <;>
        exact main _ (fun d2 hd2 =>
          lookupNat_setNat_ne _ _ _ _ (fun h2 => hd2 h2.symm)) hps
    · rw [lookupKey_setKey_ne _ _ _ _ hk] at hte
      exact hA tk te d ps hte hps
  · intro tk n htn
    by_cases hk : tok = tk
    · subst hk
      refine ⟨entry1.addTokenPosition docID (t.termID + 1),
        lookupKey_setKey_self _ _ _, ?_⟩
      simp only [TermEntry.addTokenPosition]
      cases hl : lookupNat entry1.positions docID <;> simp <;> exact hdocsID
    · rw [lookupKey_setKey_ne _ _ _ _ hk] at htn
      obtain ⟨te2, hte2, hmem⟩ := hB tk n htn
      exact ⟨te2, by rw [lookupKey_setKey_ne _ _ _ _ hk]; exact hte2, hmem⟩

theorem processToken_inv (stem : String → String) (fname : String)
    (docID : Nat) (P : String → Nat → Prop) (t : TokScan) (token : String)
    (h : TokInv P docID t) :
    TokInv P docID (processToken stem fname docID t token) := by
  unfold processToken
  by_cases hstop : StemmerJS.isStopWord token = true
  · simpa [hstop] using h
  · simp only [hstop, Bool.false_eq_true, if_false]
    exact tokenUpdate_inv fname docID P t _ _ _ h

theorem tokensFold_inv (stem : String → String) (fname : String)
    (docID : Nat) (P : String → Nat → Prop) (tokens : List String) :
    ∀ t, TokInv P docID t →
      TokInv P docID (tokens.foldl (processToken stem fname docID) t) := by
  induction tokens with
  | nil => intro t h; exact h
  | cons tok rest ih =>
    intro t h
    exact ih _ (processToken_inv stem fname docID P t tok h)

theorem processField_inv (stem : String → String) (doc : DocInput)
    (docID : Nat) (idxTerms : List (String × TermEntry)) (a : AddScan)
    (f : Field) (h : ScanInv idxTerms docID a) :
    ScanInv idxTerms docID (processField stem doc docID a f) ∧
    (∀ f2 ∈ a.fieldsDone, f2 ∈ (processField stem doc docID a f).fieldsDone) ∧
    (∃ f2, (processField stem doc docID a f).fieldsDone =
        a.fieldsDone ++ [f2] ∧
      ∀ d, (lookupNat f.documents d).isSome →
        (lookupNat f2.documents d).isSome) := by
  unfold processField
  by_cases hskip : (match doc.fieldText f.name with
    | none => true
    | some text => text = "") = true
  · simp only [hskip, if_true]
    refine ⟨?_, ?_, f, rfl, fun d hd => hd⟩
    · intro t te d ps hte hps
      obtain ⟨h1, h2⟩ := h t te d ps hte hps
      refine ⟨h1, ?_⟩
      rcases h2 with h2 | ⟨h2a, f2, hf2, hcov⟩
      · exact Or.inl h2
      · exact Or.inr ⟨h2a, f2, List.mem_append_left _ hf2, hcov⟩
    · intro f2 hf2
      exact List.mem_append_left _ hf2
  · simp only [hskip, Bool.false_eq_true, if_false]
    set P : String → Nat → Prop := fun tk d =>
      (∃ te0, lookupKey idxTerms tk = some te0 ∧
        (lookupNat te0.positions d).isSome) ∨
      (d = docID ∧ ∃ f2 ∈ a.fieldsDone,
        (lookupNat f2.documents docID).isSome) with hP
    have h0 : TokInv P docID
        { terms := a.terms, trie := a.trie, termID := a.termID
          wordCorrelations := a.wordCorrelations
          termFrequencies := [], numberOfTokens := 0 } := by
      constructor
      · intro tk te d ps hte hps
        obtain ⟨h1, h2⟩ := h tk te d ps hte hps
        exact ⟨h1, Or.inl h2⟩
      · intro tk n htn
        simp [lookupKey] at htn
    have h1 := tokensFold_inv stem f.name docID P
      (StemmerJS.tokenize ((doc.fieldText f.name).getD "") true) _ h0
    obtain ⟨h1A, _⟩ := h1
    refine ⟨?_, ?_, ?_⟩
    · intro t te d ps hte hps
      obtain ⟨hm, hj⟩ := h1A t te d ps hte hps
      refine ⟨hm, ?_⟩
      rcases hj with hj | hj
      · rw [hP] at hj
        rcases hj with hj | ⟨hja, f2, hf2, hcov⟩
        · exact Or.inl hj
        · exact Or.inr ⟨hja, f2, List.mem_append_left _ hf2, hcov⟩
      · refine Or.inr ⟨hj, _, List.mem_append_right _ (List.mem_singleton.mpr rfl), ?_⟩
        simp only [lookupNat_setNat_self, Option.isSome_some]
    · intro f2 hf2
      exact List.mem_append_left _ hf2
    · refine ⟨_, rfl, fun d hd => ?_⟩
      by_cases hdd : d = docID
      · subst hdd
        simp only [lookupNat_setNat_self, Option.isSome_some]
      · rw [lookupNat_setNat_ne _ _ _ _ (fun h2 => hdd h2.symm)]
        exact hd

theorem fieldsFold_inv (stem : String → String) (doc : DocInput)
    (docID : Nat) (idxTerms : List (String × TermEntry))
    (fs : List Field) :
    ∀ a, ScanInv idxTerms docID a →
      ScanInv idxTerms docID (fs.foldl (processField stem doc docID) a) ∧
      (∀ f2 ∈ a.fieldsDone,
        f2 ∈ (fs.foldl (processField stem doc docID) a).fieldsDone) ∧
      (∀ f ∈ fs, ∃ f2 ∈ (fs.foldl (processField stem doc docID) a).fieldsDone,
        ∀ d, (lookupNat f.documents d).isSome →
          (lookupNat f2.documents d).isSome) := by
  induction fs with
  | nil => intro a h; exact ⟨h, fun f2 hf2 => hf2, by simp⟩
  | cons f rest ih =>
    intro a h
    obtain ⟨hstep, hpres, f2, hf2eq, hf2cov⟩ :=
      processField_inv stem doc docID idxTerms a f h
    obtain ⟨ihA, ihPres, ihCov⟩ := ih _ hstep
    refine ⟨ihA, ?_, ?_⟩
    · intro f3 hf3
      exact ihPres f3 (hpres f3 hf3)
    · intro f3 hf3
      rcases List.mem_cons.mp hf3 with rfl | hf3r
      · refine ⟨f2, ihPres f2 ?_, hf2cov⟩
        rw [hf2eq]
        exact List.mem_append_right _ (List.mem_singleton.mpr rfl)
      · exact ihCov f3 hf3r

theorem add_preserves_IndexInv (stem : String → String) (idx : FTSIndex)
    (doc : DocInput) (h : IndexInv idx) :
    IndexInv (FTSIndex.add stem idx doc) := by
  unfold FTSIndex.add
  by_cases hc : (doc.links.isSome && doc.url.isSome) = true <;>
    simp only [hc, Bool.false_eq_true, if_false, if_true] <;>
  · have h0 : ScanInv idx.terms idx.docID
        ⟨[], idx.terms, idx.trie, idx.termID, idx.wordCorrelations⟩ := by
      intro t te d ps hte hps
      obtain ⟨h1, _⟩ := h t te d ps hte hps
      exact ⟨h1, Or.inl ⟨te, hte, by rw [hps]; rfl⟩⟩
    obtain ⟨hA, _, hCov⟩ := fieldsFold_inv stem doc idx.docID idx.terms
      idx.fields _ h0
    intro t te d ps hte hps
    obtain ⟨h1, h2⟩ := hA t te d ps hte hps
    refine ⟨h1, ?_⟩
    rcases h2 with ⟨te0, hte0, hps0⟩ | ⟨hd, f2, hf2, hcov⟩
    · obtain ⟨ps0, hps0some⟩ := Option.isSome_iff_exists.mp hps0
      obtain ⟨_, f0, hf0, hf0cov⟩ := h t te0 d ps0 hte0 hps0some
      obtain ⟨f2, hf2, hf2cov⟩ := hCov f0 hf0
      exact ⟨f2, hf2, hf2cov d hf0cov⟩
    · exact ⟨f2, hf2, hd ▸ hcov⟩

/-- C4 amended: after any sequence of `FTSIndex.add` operations (any field
configuration, any stemmer), if a token's `TermEntry` has a positions
entry for a document, then that document appears in the entry's `docs`
list — at least once, possibly more than once: `register` runs once per
field containing the token (see the counterexample) — and the document
has a `DocumentEntry` in at least one field. -/
theorem term_positions_imply_registration (stem : String → String)
    (cfg : List (String × ℚ)) (docsList : List DocInput) (t : String)
    (te : TermEntry) (d : Nat) (ps : List Nat)
    (hte : lookupKey
      (docsList.foldl (FTSIndex.add stem) (FTSIndex.init cfg)).terms t =
      some te)
    (hps : lookupNat te.positions d = some ps) :
    d ∈ te.docs ∧
    ∃ f ∈ (docsList.foldl (FTSIndex.add stem) (FTSIndex.init cfg)).fields,
      (lookupNat f.documents d).isSome := by
  have main : ∀ (docs : List DocInput) (idx0 : FTSIndex), IndexInv idx0 →
      IndexInv (docs.foldl (FTSIndex.add stem) idx0) := by
    intro docs
    induction docs with
    | nil => intro idx0 h; exact h
    | cons doc rest ih =>
      intro idx0 h
      exact ih _ (add_preserves_IndexInv stem idx0 doc h)
  have hinit : IndexInv (FTSIndex.init cfg) := by
    intro t2 te2 d2 ps2 hte2
    simp [FTSIndex.init, lookupKey] at hte2
  exact main docsList (FTSIndex.init cfg) hinit t te d ps hte hps

/-- C4 amended witness: the `$max` entry of `c4Index` — document 0 has
positions, appears in `docs` (twice), and has document entries in both
fields. -/
theorem term_positions_imply_registration_witness :
    0 ∈ (⟨[0, 0], [(0, [1, 2, 4, 5])],
      [("text", 1), ("title", 1)]⟩ : TermEntry).docs ∧
    ∃ f ∈ ([c4Doc].foldl (FTSIndex.add id)
        (FTSIndex.init [("text", 1), ("title", 10)])).fields,
      (lookupNat f.documents 0).isSome :=
  term_positions_imply_registration id [("text", 1), ("title", 10)] [c4Doc]
    "$max" ⟨[0, 0], [(0, [1, 2, 4, 5])], [("text", 1), ("title", 1)]⟩ 0
    [1, 2, 4, 5] (by decide) (by decide)

namespace Trie

theorem mem_pushNew {α : Type} [DecidableEq α] (l : List α) (a b : α) :
    b ∈ pushNew l a ↔ b ∈ l ∨ b = a := by
  unfold pushNew
  split
  · constructor
    · exact fun h => Or.inl h
    · rintro (h | rfl)
      · exact h
      · assumption
  · simp

theorem childFor_setChild_self (ch : List (Nat × Node)) (k : Nat) (n : Node) :
    childFor (setChild ch k n) k = some n := by
  induction ch with
  | nil => simp [setChild, childFor]
  | cons e rest ih =>
    by_cases h : e.1 = k <;> simp [setChild, childFor, h, ih]

theorem childFor_setChild_ne (ch : List (Nat × Node)) (k k2 : Nat) (n : Node)
    (h : k ≠ k2) : childFor (setChild ch k n) k2 = childFor ch k2 := by
  induction ch with
  | nil => simp [setChild, childFor, h]
  | cons e rest ih =>
    by_cases h2 : e.1 = k <;> simp [setChild, childFor, h2, h, ih]

theorem childFor_mem (ch : List (Nat × Node)) (k : Nat) (n : Node)
    (h : childFor ch k = some n) : (k, n) ∈ ch := by
  induction ch with
  | nil => simp [childFor] at h
  | cons e rest ih =>
    obtain ⟨e1, e2⟩ := e
    by_cases h2 : e1 = k
    · simp only [childFor, h2, if_true] at h
      injection h with h
      subst h2
      subst h
      exact List.mem_cons_self _ _
    · simp only [childFor, h2, if_false] at h
      exact List.mem_cons_of_mem _ (ih h)

theorem termIds_emptyNode (t : List Char) : termIds emptyNode t = [] := by
  cases t <;> simp [termIds, emptyNode, walk, childFor, Node.term]

/-- The effect of `insert` on the terminal id set of every token: only the
inserted token's terminal changes, by a `Set.add`. -/
theorem termIds_insert (u t : List Char) : ∀ (tr : Node) (id : Nat),
    termIds (insert tr u id) t =
      if u = t then pushNew (termIds tr t) id else termIds tr t := by
  induction u generalizing t with
  | nil =>
    intro tr id
    obtain ⟨term, children⟩ := tr
    cases t with
    | nil =>
      cases term <;> simp [insert, termIds, walk, Node.term]
    | cons d ts =>
      simp only [insert, termIds, walk]
      rfl
  | cons c us ih =>
    intro tr id
    obtain ⟨term, children⟩ := tr
    cases t with
    | nil =>
      simp only [insert, termIds, walk, Node.term]
      rfl
    | cons d ts =>
      by_cases hcd : c = d
      · subst hcd
        have hchild : ∀ X : Node,
            termIds (Node.node term (setChild children (c.toNat + 1) X))
              (c :: ts) = termIds X ts := by
          intro X
          simp [termIds, walk, childFor_setChild_self]
        have hbase : termIds (Node.node term children) (c :: ts) =
            termIds (match childFor children (c.toNat + 1) with
              | none => emptyNode
              | some t => t) ts := by
          cases h : childFor children (c.toNat + 1) with
          | none =>
            simp only [termIds, walk, h]
            exact (termIds_emptyNode ts).symm
          | some child => simp [termIds, walk, h]
        rw [show insert (Node.node term children) (c :: us) id =
          Node.node term (setChild children (c.toNat + 1)
            (insert (match childFor children (c.toNat + 1) with
              | none => emptyNode
              | some t => t) us id)) from rfl]
        rw [hchild, ih, hbase]
        by_cases hut : us = ts
        · simp [hut]
        · rw [if_neg hut, if_neg (by simp [hut])]
      · have hcode : c.toNat + 1 ≠ d.toNat + 1 := by
          intro h
          apply hcd
          have h2 : c.toNat = d.toNat := by omega
          ext
          exact h2
        simp only [insert, termIds, walk, childFor_setChild_ne _ _ _ _ hcode]
        have hne : ¬(c :: us = d :: ts) := by simp [hcd]
        simp only [hne, if_false]

theorem mem_termIds_build (pairs : List (List Char × Nat)) (t : List Char)
    (i : Nat) : i ∈ termIds (build pairs) t ↔ (t, i) ∈ pairs := by
  have main : ∀ (ps : List (List Char × Nat)) (tr : Node),
      i ∈ termIds (ps.foldl (fun tr p => insert tr p.1 p.2) tr) t ↔
        i ∈ termIds tr t ∨ (t, i) ∈ ps := by
    intro ps
    induction ps with
    | nil => simp
    | cons p rest ih =>
      intro tr
      obtain ⟨pt, pi⟩ := p
      simp only [List.foldl_cons, ih, termIds_insert, List.mem_cons]
      by_cases hp : pt = t
      · subst hp
        rw [if_pos rfl]
        simp only [mem_pushNew, Prod.mk.injEq]
        constructor
        · rintro ((h | h) | h)
          · exact Or.inl h
          · exact Or.inr (Or.inl ⟨trivial, h⟩)
          · exact Or.inr (Or.inr h)
        · rintro (h | ⟨_, h⟩ | h)
          · exact Or.inl (Or.inl h)
          · exact Or.inl (Or.inr h)
          · exact Or.inr h
      · rw [if_neg hp]
        simp only [Prod.mk.injEq]
        constructor
        · rintro (h | h)
          · exact Or.inl h
          · exact Or.inr (Or.inr h)
        · rintro (h | ⟨h1, _⟩ | h)
          · exact Or.inl h
          · exact absurd h1.symm hp
          · exact Or.inr h
  rw [build, main, termIds_emptyNode]
  simp

theorem walk_append (a b : List Char) : ∀ tr : Node,
    walk tr (a ++ b) = (walk tr a).bind (fun n => walk n b) := by
  induction a with
  | nil => intro tr; simp [walk]
  | cons c as ih =>
    intro tr
    obtain ⟨term, children⟩ := tr
    simp only [List.cons_append, walk]
    cases childFor children (c.toNat + 1) with
    | none => simp
    | some child => simp [ih]

theorem WF_emptyNode : WF emptyNode :=
  WF.mk none [] (by simp) (by simp) (by simp)

theorem setChild_map_fst (ch : List (Nat × Node)) (k : Nat) (n : Node) :
    (setChild ch k n).map Prod.fst =
      if k ∈ ch.map Prod.fst then ch.map Prod.fst
      else ch.map Prod.fst ++ [k] := by
  induction ch with
  | nil => simp [setChild]
  | cons e rest ih =>
    by_cases h : e.1 = k
    · simp [setChild, h]
    · simp only [setChild, h, if_false, List.map_cons, ih, List.mem_cons]
      have : ¬(k = e.1) := fun h2 => h h2.symm
      by_cases h2 : k ∈ rest.map Prod.fst <;> simp [this, h2]

theorem mem_setChild (ch : List (Nat × Node)) (k : Nat) (n : Node)
    (p : Nat × Node) (hp : p ∈ setChild ch k n) : p = (k, n) ∨ p ∈ ch := by
  induction ch with
  | nil => simpa [setChild] using hp
  | cons e rest ih =>
    obtain ⟨k2, c2⟩ := e
    by_cases h : k2 = k
    · subst h
      simp only [setChild, if_pos rfl] at hp
      rcases List.mem_cons.mp hp with heq | hp2
      · exact Or.inl heq
      · exact Or.inr (List.mem_cons_of_mem _ hp2)
    · simp only [setChild, if_neg h] at hp
      rcases List.mem_cons.mp hp with heq | hp2
      · subst heq; exact Or.inr (List.mem_cons_self _ _)
      · rcases ih hp2 with h2 | h2
        · exact Or.inl h2
        · exact Or.inr (List.mem_cons_of_mem _ h2)

theorem WF_insert (u : List Char) : ∀ (tr : Node) (id : Nat), WF tr →
    WF (insert tr u id) := by
  induction u with
  | nil =>
    intro tr id h
    obtain ⟨term, children⟩ := tr
    cases h with
    | mk _ _ h1 h2 h3 => exact WF.mk _ _ h1 h2 h3
  | cons c us ih =>
    intro tr id h
    obtain ⟨term, children⟩ := tr
    cases h with
    | mk _ _ h1 h2 h3 =>
      have hchildWF : WF (match childFor children (c.toNat + 1) with
          | none => emptyNode
          | some t => t) := by
        cases hcf : childFor children (c.toNat + 1) with
        | none => exact WF_emptyNode
        | some child => exact h3 _ (childFor_mem _ _ _ hcf)
      refine WF.mk _ _ ?_ ?_ ?_
      · rw [setChild_map_fst]
        split
        · exact h1
        · simp only [List.nodup_append, h1, List.nodup_singleton, true_and]
          intro a ha hb
          simp only [List.mem_singleton] at hb
          subst hb
          next hnotin => exact hnotin ha
      · intro p hp
        rcases mem_setChild _ _ _ _ hp with rfl | hp2
        · exact ⟨c, rfl⟩
        · exact h2 p hp2
      · intro p hp
        rcases mem_setChild _ _ _ _ hp with rfl | hp2
        · exact ih _ id hchildWF
        · exact h3 p hp2

theorem WF_build (pairs : List (List Char × Nat)) : WF (build pairs) := by
  have main : ∀ (ps : List (List Char × Nat)) (tr : Node), WF tr →
      WF (ps.foldl (fun tr p => insert tr p.1 p.2) tr) := by
    intro ps
    induction ps with
    | nil => intro tr h; exact h
    | cons p rest ih => intro tr h; exact ih _ (WF_insert p.1 tr p.2 h)
  exact main pairs emptyNode WF_emptyNode

theorem WF_walk (t : List Char) : ∀ (tr n : Node), walk tr t = some n →
    WF tr → WF n := by
  induction t with
  | nil =>
    intro tr n h hwf
    simp only [walk] at h
    injection h with h
    rw [← h]; exact hwf
  | cons c ts ih =>
    intro tr n h hwf
    obtain ⟨term, children⟩ := tr
    simp only [walk] at h
    cases hcf : childFor children (c.toNat + 1) with
    | none => rw [hcf] at h; cases h
    | some child =>
      rw [hcf] at h
      cases hwf with
      | mk _ _ h1 h2 h3 =>
        exact ih child n h (h3 _ (childFor_mem _ _ _ hcf))

theorem hitMem_nil (i : Nat) (u : List Char) : ¬ hitMem [] i u := by
  rintro ⟨ts, hmem, _⟩
  simp at hmem

theorem hitMem_cons (k : Nat) (ts : List (List Char))
    (rest : List (Nat × List (List Char))) (i : Nat) (u : List Char) :
    hitMem ((k, ts) :: rest) i u ↔ (i = k ∧ u ∈ ts) ∨ hitMem rest i u := by
  constructor
  · rintro ⟨ts2, hmem, hu⟩
    rcases List.mem_cons.mp hmem with heq | hmem2
    · have h1 : i = k := congrArg Prod.fst heq
      have h2 : ts2 = ts := congrArg Prod.snd heq
      subst h2
      exact Or.inl ⟨h1, hu⟩
    · exact Or.inr ⟨ts2, hmem2, hu⟩
  · rintro (⟨h1, hu⟩ | ⟨ts2, hmem, hu⟩)
    · subst h1
      exact ⟨ts, List.mem_cons_self _ _, hu⟩
    · exact ⟨ts2, List.mem_cons_of_mem _ hmem, hu⟩

theorem hitMem_setNat (m : List (Nat × List (List Char))) (j : Nat)
    (tok : List Char) (i : Nat) (u : List Char)
    (hvals : ∀ p ∈ m, p.2 = [tok]) :
    hitMem (setNat m j [tok]) i u ↔ hitMem m i u ∨ (i = j ∧ u = tok) := by
  induction m with
  | nil =>
    simp only [setNat]
    rw [hitMem_cons]
    simp only [List.mem_singleton]
    constructor
    · rintro (⟨h1, h2⟩ | h)
      · exact Or.inr ⟨h1, h2⟩
      · exact absurd h (hitMem_nil i u)
    · rintro (h | ⟨h1, h2⟩)
      · exact absurd h (hitMem_nil i u)
      · exact Or.inl ⟨h1, h2⟩
  | cons e rest ih =>
    obtain ⟨k, v⟩ := e
    have hv : v = [tok] := hvals (k, v) (List.mem_cons_self _ _)
    subst hv
    have hrest : ∀ p ∈ rest, p.2 = [tok] :=
      fun p hp => hvals p (List.mem_cons_of_mem _ hp)
    by_cases h : k = j
    · subst h
      simp only [setNat, eq_self_iff_true, if_true]
      rw [hitMem_cons]
      simp only [List.mem_singleton]
      tauto
    · simp only [setNat, if_neg h]
      rw [hitMem_cons, hitMem_cons, ih hrest]
      simp only [List.mem_singleton]
      tauto

theorem setNat_vals (j : Nat) (tok : List Char) :
    ∀ (m : List (Nat × List (List Char))), (∀ p ∈ m, p.2 = [tok]) →
    ∀ p ∈ setNat m j [tok], p.2 = [tok] := by
  intro m
  induction m with
  | nil =>
    intro _ p hp
    simp only [setNat, List.mem_singleton] at hp
    subst hp
    rfl
  | cons e rest ih =>
    intro hvals p hp
    obtain ⟨k, v⟩ := e
    by_cases h : k = j
    · simp only [setNat, if_pos h] at hp
      rcases List.mem_cons.mp hp with heq | hp2
      · subst heq; rfl
      · exact hvals _ (List.mem_cons_of_mem _ hp2)
    · simp only [setNat, if_neg h] at hp
      rcases List.mem_cons.mp hp with heq | hp2
      · subst heq; exact hvals _ (List.mem_cons_self _ _)
      · exact ih (fun q hq => hvals q (List.mem_cons_of_mem _ hq)) _ hp2

theorem hitMem_exactFold (tok : List Char) (ids : List Nat) :
    ∀ (acc : List (Nat × List (List Char))), (∀ p ∈ acc, p.2 = [tok]) →
    ∀ i u, hitMem (ids.foldl (fun r id => setNat r id [tok]) acc) i u ↔
      hitMem acc i u ∨ (i ∈ ids ∧ u = tok) := by
  induction ids with
  | nil => intro acc hvals i u; simp
  | cons j rest ih =>
    intro acc hvals i u
    simp only [List.foldl_cons]
    rw [ih _ (setNat_vals j tok acc hvals), hitMem_setNat _ _ _ _ _ hvals]
    simp only [List.mem_cons]
    tauto

/-- Exact search: `search(t, false)` maps exactly the ids whose terminal is
reached by `t`, each to the singleton token set `{t}`. -/
theorem hitMem_search_exact (tr : Node) (tok : List Char) (i : Nat)
    (u : List Char) :
    hitMem (search tr tok false) i u ↔ i ∈ termIds tr tok ∧ u = tok := by
  cases hw : walk tr tok with
  | none =>
    simp only [search, termIds, hw]
    exact ⟨fun h => absurd h (hitMem_nil i u),
           fun h => absurd h.1 (List.not_mem_nil i)⟩
  | some cursor =>
    cases ht : cursor.term with
    | none =>
      simp only [search, termIds, hw, ht, Bool.false_eq_true, if_false]
      exact ⟨fun h => absurd h (hitMem_nil i u),
             fun h => absurd h.1 (List.not_mem_nil i)⟩
    | some ids =>
      simp only [search, termIds, hw, ht, Bool.false_eq_true, if_false]
      rw [hitMem_exactFold tok ids [] (by simp) i u]
      exact ⟨fun h => h.resolve_left (hitMem_nil i u), fun h => Or.inr h⟩

theorem hitMem_addHit (r : List (Nat × List (List Char))) (j : Nat)
    (v : List Char) (i : Nat) (u : List Char) :
    hitMem (addHit r j v) i u ↔ hitMem r i u ∨ (i = j ∧ u = v) := by
  induction r with
  | nil =>
    simp only [addHit]
    rw [hitMem_cons]
    simp only [List.mem_singleton]
    constructor
    · rintro (⟨h1, h2⟩ | h)
      · exact Or.inr ⟨h1, h2⟩
      · exact absurd h (hitMem_nil i u)
    · rintro (h | ⟨h1, h2⟩)
      · exact absurd h (hitMem_nil i u)
      · exact Or.inl ⟨h1, h2⟩
  | cons e rest ih =>
    obtain ⟨k, ts⟩ := e
    by_cases h : k = j
    · subst h
      simp only [addHit, eq_self_iff_true, if_true]
      rw [hitMem_cons, hitMem_cons]
      simp only [mem_pushNew]
      tauto
    · simp only [addHit, if_neg h]
      rw [hitMem_cons, hitMem_cons, ih]
      tauto

theorem hitMem_addHitIds (v : List Char) (ids : List Nat) :
    ∀ (r : List (Nat × List (List Char))) (i : Nat) (u : List Char),
    hitMem (ids.foldl (fun r id => addHit r id v) r) i u ↔
      hitMem r i u ∨ (i ∈ ids ∧ u = v) := by
  induction ids with
  | nil => intro r i u; simp
  | cons j rest ih =>
    intro r i u
    simp only [List.foldl_cons]
    rw [ih, hitMem_addHit]
    simp only [List.mem_cons]
    tauto

theorem hitMem_addHitEntries (entries : List (List Char × List Nat)) :
    ∀ (r : List (Nat × List (List Char))) (i : Nat) (u : List Char),
    hitMem (entries.foldl
      (fun r e => e.2.foldl (fun r id => addHit r id e.1) r) r) i u ↔
      hitMem r i u ∨ ∃ e ∈ entries, u = e.1 ∧ i ∈ e.2 := by
  induction entries with
  | nil => intro r i u; simp
  | cons e rest ih =>
    intro r i u
    simp only [List.foldl_cons]
    rw [ih, hitMem_addHitIds]
    constructor
    · rintro ((h | ⟨h1, h2⟩) | h)
      · exact Or.inl h
      · exact Or.inr ⟨e, List.mem_cons_self _ _, h2, h1⟩
      · obtain ⟨e2, he2, h1, h2⟩ := h
        exact Or.inr ⟨e2, List.mem_cons_of_mem _ he2, h1, h2⟩
    · rintro (h | ⟨e2, he2, h1, h2⟩)
      · exact Or.inl (Or.inl h)
      · rcases List.mem_cons.mp he2 with heq | he2b
        · subst heq; exact Or.inl (Or.inr ⟨h2, h1⟩)
        · exact Or.inr ⟨e2, he2b, h1, h2⟩

theorem termIds_nil (term : Option (List Nat)) (children : List (Nat × Node)) :
    termIds (.node term children) [] =
      match term with | none => [] | some ids => ids := rfl

theorem termIds_cons (term : Option (List Nat)) (children : List (Nat × Node))
    (c : Char) (s : List Char) :
    termIds (.node term children) (c :: s) =
      match childFor children (c.toNat + 1) with
      | none => []
      | some nd => termIds nd s := by
  simp only [termIds, walk]
  cases childFor children (c.toNat + 1) <;> rfl

theorem WF_children (term : Option (List Nat)) (children : List (Nat × Node))
    (h : WF (.node term children)) : WFch children := by
  cases h with
  | mk _ _ h1 h2 h3 => exact ⟨h1, h2, h3⟩

/-- The depth-first collection phase of `Trie.search` visits exactly the
terminals of the subtree below the cursor, each labelled with the full token
(prefix plus remaining path) that leads to it. -/
theorem collect_spec : ∀ (n : Node) (pre : List Char), WF n →
    ∀ (v : List Char) (i : Nat),
    ((∃ ids, (v, ids) ∈ collectEntries n pre ∧ i ∈ ids) ↔
      ∃ s, v = pre ++ s ∧ i ∈ termIds n s) := by
  intro n0 pre0
  refine collectEntries.induct
    (fun n pre => WF n → ∀ (v : List Char) (i : Nat),
      ((∃ ids, (v, ids) ∈ collectEntries n pre ∧ i ∈ ids) ↔
        ∃ s, v = pre ++ s ∧ i ∈ termIds n s))
    (fun ch pre => WFch ch → ∀ (v : List Char) (i : Nat),
      ((∃ ids, (v, ids) ∈ collectChildren ch pre ∧ i ∈ ids) ↔
        ∃ (c : Char) (s : List Char) (nd : Node), v = pre ++ c :: s ∧
          childFor ch (c.toNat + 1) = some nd ∧ i ∈ termIds nd s))
    ?_ ?_ ?_ n0 pre0
  · intro term children pre ih hwf v i
    have hch : WFch children := WF_children term children hwf
    cases term with
    | none =>
      constructor
      · rintro ⟨ids, hmem, hi⟩
        have hmem2 : (v, ids) ∈ collectChildren children pre := hmem
        rcases (ih hch v i).mp ⟨ids, hmem2, hi⟩ with ⟨c, s, nd, hv, hcf, hti⟩
        refine ⟨c :: s, hv, ?_⟩
        rw [termIds_cons, hcf]
        exact hti
      · rintro ⟨s, hv, hti⟩
        cases s with
        | nil =>
          rw [termIds_nil] at hti
          exact absurd hti (List.not_mem_nil i)
        | cons c ss =>
          rw [termIds_cons] at hti
          cases hcf : childFor children (c.toNat + 1) with
          | none =>
            rw [hcf] at hti
            exact absurd hti (List.not_mem_nil i)
          | some nd =>
            rw [hcf] at hti
            obtain ⟨ids, hmem, hi⟩ := (ih hch v i).mpr ⟨c, ss, nd, hv, hcf, hti⟩
            exact ⟨ids, hmem, hi⟩
    | some ids0 =>
      constructor
      · rintro ⟨ids, hmem, hi⟩
        have hmem' : (v, ids) ∈ [(pre, ids0)] ++ collectChildren children pre :=
          hmem
        rcases List.mem_append.mp hmem' with hmem1 | hmem2
        · have heq := List.mem_singleton.mp hmem1
          have h1 : v = pre := congrArg Prod.fst heq
          have h2 : ids = ids0 := congrArg Prod.snd heq
          refine ⟨[], ?_, ?_⟩
          · rw [List.append_nil]; exact h1
          · rw [termIds_nil]
            exact h2 ▸ hi
        · rcases (ih hch v i).mp ⟨ids, hmem2, hi⟩ with ⟨c, s, nd, hv, hcf, hti⟩
          refine ⟨c :: s, hv, ?_⟩
          rw [termIds_cons, hcf]
          exact hti
      · rintro ⟨s, hv, hti⟩
        cases s with
        | nil =>
          rw [termIds_nil] at hti
          refine ⟨ids0, ?_, hti⟩
          show (v, ids0) ∈ [(pre, ids0)] ++ collectChildren children pre
          refine List.mem_append.mpr (Or.inl ?_)
          have hvp : v = pre := by rw [hv, List.append_nil]
          rw [hvp]
          exact List.mem_singleton.mpr rfl
        | cons c ss =>
          rw [termIds_cons] at hti
          cases hcf : childFor children (c.toNat + 1) with
          | none =>
            rw [hcf] at hti
            exact absurd hti (List.not_mem_nil i)
          | some nd =>
            rw [hcf] at hti
            obtain ⟨ids, hmem, hi⟩ := (ih hch v i).mpr ⟨c, ss, nd, hv, hcf, hti⟩
            refine ⟨ids, ?_, hi⟩
            show (v, ids) ∈ [(pre, ids0)] ++ collectChildren children pre
            exact List.mem_append.mpr (Or.inr hmem)
  · intro pre _ v i
    constructor
    · rintro ⟨ids, hmem, _⟩
      exact absurd hmem (List.not_mem_nil _)
    · rintro ⟨c, s, nd, _, hcf, _⟩
      simp [childFor] at hcf
  · intro k c rest pre ih1 ih2 hch v i
    obtain ⟨hnd, hform, hwfs⟩ := hch
    obtain ⟨c0, hkc0⟩ := hform (k, c) (List.mem_cons_self _ _)
    have hk1 : k - 1 = c0.toNat := by omega
    have hchar : Char.ofNat (k - 1) = c0 := by
      rw [hk1]; exact Char.ofNat_toNat c0
    have hwfc : WF c := hwfs (k, c) (List.mem_cons_self _ _)
    obtain ⟨hknotin, hndrest⟩ :=
      List.nodup_cons.mp (show (k :: rest.map Prod.fst).Nodup from hnd)
    have hrest : WFch rest :=
      ⟨hndrest, fun p hp => hform p (List.mem_cons_of_mem _ hp),
        fun p hp => hwfs p (List.mem_cons_of_mem _ hp)⟩
    have ih1' := ih1 hwfc
    have ih2' := ih2 hrest
    have hcfHead : childFor ((k, c) :: rest) (c0.toNat + 1) = some c := by
      simp only [childFor]
      rw [if_pos hkc0]
    constructor
    · rintro ⟨ids, hmem, hi⟩
      have hmem' : (v, ids) ∈ collectEntries c (pre ++ [Char.ofNat (k - 1)]) ++
          collectChildren rest pre := hmem
      rcases List.mem_append.mp hmem' with hmem1 | hmem2
      · rcases (ih1' v i).mp ⟨ids, hmem1, hi⟩ with ⟨s, hv, hti⟩
        refine ⟨c0, s, c, ?_, hcfHead, hti⟩
        rw [hv, hchar, List.append_assoc]
        rfl
      · rcases (ih2' v i).mp ⟨ids, hmem2, hi⟩ with ⟨c1, s, nd, hv, hcf, hti⟩
        refine ⟨c1, s, nd, hv, ?_, hti⟩
        have hne : k ≠ c1.toNat + 1 := by
          intro heq
          apply hknotin
          have hmemr := childFor_mem rest (c1.toNat + 1) nd hcf
          have : c1.toNat + 1 ∈ rest.map Prod.fst :=
            List.mem_map_of_mem Prod.fst hmemr
          rw [heq]
          exact this
        simp only [childFor]
        rw [if_neg hne]
        exact hcf
    · rintro ⟨c1, s, nd, hv, hcf, hti⟩
      by_cases heq : k = c1.toNat + 1
      · have hc1c0 : c1 = c0 := by
          have h2 : c1.toNat = c0.toNat := by omega
          ext
          exact h2
        have hndc : nd = c := by
          have hcfHead2 : childFor ((k, c) :: rest) (c1.toNat + 1) = some c := by
            rw [hc1c0]
            exact hcfHead
          exact Option.some.inj (hcf.symm.trans hcfHead2)
        have hti' : i ∈ termIds c s := hndc ▸ hti
        have hveq : v = (pre ++ [Char.ofNat (k - 1)]) ++ s := by
          rw [hv, hchar, hc1c0, List.append_assoc]
          rfl
        obtain ⟨ids, hmem, hi⟩ := (ih1' v i).mpr ⟨s, hveq, hti'⟩
        refine ⟨ids, ?_, hi⟩
        show (v, ids) ∈ collectEntries c (pre ++ [Char.ofNat (k - 1)]) ++
          collectChildren rest pre
        exact List.mem_append.mpr (Or.inl hmem)
      · have hcf' : childFor rest (c1.toNat + 1) = some nd := by
          have h2 : childFor ((k, c) :: rest) (c1.toNat + 1) =
              childFor rest (c1.toNat + 1) := by
            simp only [childFor]
            rw [if_neg heq]
          rw [← h2]
          exact hcf
        obtain ⟨ids, hmem, hi⟩ := (ih2' v i).mpr ⟨c1, s, nd, hv, hcf', hti⟩
        refine ⟨ids, ?_, hi⟩
        show (v, ids) ∈ collectEntries c (pre ++ [Char.ofNat (k - 1)]) ++
          collectChildren rest pre
        exact List.mem_append.mpr (Or.inr hmem)

theorem termIds_walkStep (tr cursor : Node) (tok s : List Char)
    (hw : walk tr tok = some cursor) :
    termIds tr (tok ++ s) = termIds cursor s := by
  simp only [termIds]
  rw [walk_append, hw]
  rfl

/-- Search with `prefixSearch = true`: a hit `(id, u)` is produced exactly
when `u` extends the query token and `id` is stored at `u`'s terminal. -/
theorem hitMem_search_pre (tr : Node) (tok : List Char) (i : Nat)
    (u : List Char) (hwf : WF tr) :
    hitMem (search tr tok true) i u ↔
      (∃ s, tok ++ s = u) ∧ i ∈ termIds tr u := by
  cases hw : walk tr tok with
  | none =>
    simp only [search, hw]
    constructor
    · intro h
      exact absurd h (hitMem_nil i u)
    · rintro ⟨⟨s, hs⟩, hti⟩
      rw [← hs] at hti
      simp only [termIds] at hti
      rw [walk_append, hw] at hti
      exact absurd hti (List.not_mem_nil i)
  | some cursor =>
    have hwfc : WF cursor := WF_walk tok tr cursor hw hwf
    simp only [search, hw, if_true]
    rw [hitMem_addHitEntries]
    have hcollect := collect_spec cursor tok hwfc u i
    constructor
    · rintro (hex | ⟨e, hmem, h1, h2⟩)
      · -- exact-phase hit: only possible when the cursor has a terminal
        cases ht : cursor.term with
        | none =>
          rw [ht] at hex
          exact absurd hex (hitMem_nil i u)
        | some ids =>
          rw [ht] at hex
          rcases (hitMem_exactFold tok ids [] (by simp) i u).mp hex with h | h
          · exact absurd h (hitMem_nil i u)
          · refine ⟨⟨[], by rw [List.append_nil, h.2]⟩, ?_⟩
            rw [h.2]
            have h4 := termIds_walkStep tr cursor tok [] hw
            rw [List.append_nil] at h4
            rw [h4]
            obtain ⟨cterm, cch⟩ := cursor
            rw [termIds_nil]
            simp only [Node.term] at ht
            rw [ht]
            exact h.1
      · obtain ⟨s, hu, hti⟩ :=
          hcollect.mp ⟨e.2, by rw [h1, Prod.mk.eta]; exact hmem, h2⟩
        refine ⟨⟨s, hu.symm⟩, ?_⟩
        rw [hu, termIds_walkStep tr cursor tok s hw]
        exact hti
    · rintro ⟨⟨s, hs⟩, hti⟩
      rw [← hs, termIds_walkStep tr cursor tok s hw] at hti
      obtain ⟨ids, hmem, hi⟩ := hcollect.mpr ⟨s, hs.symm, hti⟩
      exact Or.inr ⟨(u, ids), hmem, rfl, hi⟩

theorem pushNew_idem {α : Type} [DecidableEq α] (l : List α) (a : α) :
    pushNew (pushNew l a) a = pushNew l a := by
  unfold pushNew
  by_cases h : a ∈ l
  · simp [h]
  · rw [if_neg h, if_pos (by simp)]

theorem setChild_setChild (k : Nat) (n n2 : Node) :
    ∀ ch : List (Nat × Node),
    setChild (setChild ch k n) k n2 = setChild ch k n2 := by
  intro ch
  induction ch with
  | nil => simp [setChild]
  | cons e rest ih =>
    obtain ⟨k2, c2⟩ := e
    by_cases h : k2 = k
    · simp [setChild, h]
    · simp [setChild, h, ih]

theorem insert_insert (u : List Char) : ∀ (tr : Node) (i : Nat),
    insert (insert tr u i) u i = insert tr u i := by
  induction u with
  | nil =>
    intro tr i
    obtain ⟨term, ch⟩ := tr
    cases term <;> simp only [insert] <;> rw [pushNew_idem]
  | cons c us ih =>
    intro tr i
    obtain ⟨term, ch⟩ := tr
    simp only [insert]
    rw [childFor_setChild_self]
    rw [ih, setChild_setChild]

end Trie

/-- C7: for a trie built by any sequence of `insert(token, id)` calls,
`search(t, false)` hits exactly the ids inserted under the token `t`
verbatim, each mapped to the token `t` itself; `search(t, true)` hits
exactly the ids inserted under any token extending `t` (a superset of the
exact result), mapping each id to the full tokens that produced it; and
inserting the same `(token, id)` pair twice yields the same search results
as inserting it once. -/
theorem trie_search_spec (pairs : List (List Char × Nat)) (tok : List Char)
    (id : Nat) (u : List Char) (t2 : List Char) (i2 : Nat) :
    (hitMem (Trie.search (Trie.build pairs) tok false) id u ↔
      (tok, id) ∈ pairs ∧ u = tok) ∧
    (hitMem (Trie.search (Trie.build pairs) tok true) id u ↔
      (∃ s, tok ++ s = u) ∧ (u, id) ∈ pairs) ∧
    (∀ pre : Bool,
      Trie.search (Trie.build (pairs ++ [(t2, i2), (t2, i2)])) tok pre =
        Trie.search (Trie.build (pairs ++ [(t2, i2)])) tok pre) := by
  refine ⟨?_, ?_, ?_⟩
  · rw [Trie.hitMem_search_exact, Trie.mem_termIds_build]
  · rw [Trie.hitMem_search_pre (Trie.build pairs) tok id u (Trie.WF_build pairs),
      Trie.mem_termIds_build]
  · intro pre
    have hb : Trie.build (pairs ++ [(t2, i2), (t2, i2)]) =
        Trie.build (pairs ++ [(t2, i2)]) := by
      unfold Trie.build
      rw [List.foldl_append, List.foldl_append]
      simp only [List.foldl_cons, List.foldl_nil]
      rw [Trie.insert_insert]
    rw [hb]

end Marian
